import Mathlib

/-!
Verification of the rust-cssparser core against its natural-language
specification.

The repository fragment under version control here contains only the crate
root `src/lib.rs` (crate documentation, re-export list, and the
`match_ignore_ascii_case!` macro).  The tokenizer, `Parser`
position/backtracking layer, and the generic rule/declaration algorithms are
declared there (`mod tokenizer; mod parser; mod rules_and_declarations; ...`)
but their files are not part of the fragment, so those components are
modelled from the specification: every definition whose doc comment starts
with `Modelled from the spec:` is a faithful transcription of the
specification text (§3, §4.1–§4.3, §6) rather than of Rust source.
The `match_ignore_ascii_case!` macro is embedded directly from `src/lib.rs`.

Machine floats are represented exactly: numeric token values are scaled
signed decimals (`NumVal`, interpreted in `ℚ` by `NumVal.toRat`), and the
decimal-to-double overflow clamp the spec describes is modelled explicitly
by `doubleClamp`.
-/

namespace CssParser

/-- Modelled from the spec: newline code points recognised by the tokenizer
(`\n`, `\r`, form feed). -/
def isNewline (c : Char) : Bool :=
  c == '\n' || c == '\r' || c == '\x0c'

/-- Modelled from the spec: whitespace code points (space, tab, newlines). -/
def isWhitespace (c : Char) : Bool :=
  c == ' ' || c == '\t' || isNewline c

/-- ASCII decimal digit. -/
def isDigit (c : Char) : Bool :=
  '0' ≤ c && c ≤ '9'

/-- ASCII hexadecimal digit. -/
def isHexDigit (c : Char) : Bool :=
  isDigit c || ('a' ≤ c && c ≤ 'f') || ('A' ≤ c && c ≤ 'F')

/-- Modelled from the spec: identifier-start code points (letters, `_`,
non-ASCII code points `≥ U+0080`). -/
def isNameStart (c : Char) : Bool :=
  ('a' ≤ c && c ≤ 'z') || ('A' ≤ c && c ≤ 'Z') || c == '_' || 0x80 ≤ c.toNat

/-- Modelled from the spec: identifier code points (identifier-start plus
digits and `-`). -/
def isNameChar (c : Char) : Bool :=
  isNameStart c || isDigit c || c == '-'

/-- Numeric value of a decimal digit. -/
def digitVal (c : Char) : Nat := c.toNat - 48

/-- Numeric value of a hexadecimal digit. -/
def hexDigitVal (c : Char) : Nat :=
  if isDigit c then c.toNat - 48
  else if 'a' ≤ c && c ≤ 'f' then c.toNat - 87
  else c.toNat - 55

/-- Length of the longest prefix whose characters all satisfy `p`. -/
def countWhile (p : Char → Bool) : List Char → Nat
  | [] => 0
  | c :: rest => if p c then countWhile p rest + 1 else 0

/-- Value of a list of decimal digits (most significant first). -/
def natOfDigits (acc : Nat) : List Char → Nat
  | [] => acc
  | c :: rest => natOfDigits (acc * 10 + digitVal c) rest

/-- Modelled from the spec: ASCII lower-casing, as used by
`eq_ignore_ascii_case` in the expansion of `match_ignore_ascii_case!`. -/
def toAsciiLower (c : Char) : Char :=
  if 'A' ≤ c && c ≤ 'Z' then Char.ofNat (c.toNat + 32) else c

/-- ASCII-range case-insensitive equality of two character lists, the
embedding of `str::eq_ignore_ascii_case` used by the macro in `src/lib.rs`. -/
def eqIgnoreAsciiCase : List Char → List Char → Bool
  | [], [] => true
  | a :: as, b :: bs => toAsciiLower a == toAsciiLower b && eqIgnoreAsciiCase as bs
  | _, _ => false

/-- Modelled from the spec: `\` followed by anything other than a newline
starts an escape. -/
def isValidEscape : List Char → Bool
  | '\\' :: d :: _ => !(isNewline d)
  | _ => false

/-- Modelled from the spec: the 1–3-code-point lookahead deciding whether the
input would start an identifier. -/
def wouldStartIdentifier : List Char → Bool
  | [] => false
  | '-' :: rest =>
    (match rest with
     | d :: _ => isNameStart d || d == '-'
     | [] => false) || isValidEscape rest
  | c :: rest => isNameStart c || isValidEscape (c :: rest)

/-- Modelled from the spec: the lookahead deciding whether the input would
start a number (optional sign, then a digit, or `.` followed by a digit). -/
def startsNumber : List Char → Bool
  | [] => false
  | '+' :: rest | '-' :: rest =>
    (match rest with
     | '.' :: d :: _ => isDigit d
     | d :: _ => isDigit d
     | [] => false)
  | '.' :: d :: _ => isDigit d
  | c :: _ => isDigit c

/-- Consume up to `allowance` hexadecimal digits, returning how many
characters were consumed and the accumulated value. -/
def takeHex : Nat → Nat → List Char → Nat × Nat
  | 0, acc, _ => (0, acc)
  | _ + 1, acc, [] => (0, acc)
  | a + 1, acc, c :: rest =>
    if isHexDigit c then
      let r := takeHex a (acc * 16 + hexDigitVal c) rest
      (r.1 + 1, r.2)
    else (0, acc)

/-- Modelled from the spec: the code point an escape value denotes — U+FFFD
when the value is zero, a surrogate, or above the maximum code point. -/
def escapeChar (v : Nat) : Char :=
  if v = 0 || (0xD800 ≤ v && v ≤ 0xDFFF) || 0x10FFFF < v then '�'
  else Char.ofNat v

/-- Modelled from the spec: consume an escape, the backslash having already
been consumed.  1–6 hex digits (plus one optional trailing whitespace code
point) denote the code point with that value via `escapeChar`; any other
non-newline code point denotes itself; EOF or a newline is an invalid escape
denoting U+FFFD and consuming nothing further. -/
def consumeEscape : List Char → Nat × Char
  | [] => (0, '�')
  | c :: rest =>
    if isHexDigit c then
      let r := takeHex 6 0 (c :: rest)
      let ws := match (c :: rest).drop r.1 with
        | d :: _ => if isWhitespace d then 1 else 0
        | [] => 0
      (r.1 + ws, escapeChar r.2)
    else if isNewline c then (0, '�')
    else (1, c)

/-- Modelled from the spec: consume the body of an identifier-like name,
handling escapes; returns (characters consumed, name value).  `fuel` bounds
the number of loop iterations and is adequate whenever it is at least the
length of the input. -/
def consumeName (fuel : Nat) (l : List Char) : Nat × List Char :=
  match fuel, l with
  | 0, _ => (0, [])
  | _ + 1, [] => (0, [])
  | f + 1, c :: rest =>
    if isNameChar c then
      let r := consumeName f rest
      (r.1 + 1, c :: r.2)
    else if c == '\\' then
      let e := consumeEscape rest
      let r := consumeName f (rest.drop e.1)
      (1 + e.1 + r.1, e.2 :: r.2)
    else (0, [])

/-- Modelled from the spec: consume the body of a quoted string after its
opening quote `q`; returns (characters consumed, unescaped value, malformed
flag).  An unescaped newline — or a backslash immediately followed by a
newline — terminates the string as malformed without consuming the newline;
a trailing backslash at end of input is consumed and ignored; end of input
terminates the string without malformed flag. -/
def consumeStringBody (fuel : Nat) (q : Char) (l : List Char) : Nat × List Char × Bool :=
  match fuel, l with
  | _, [] => (0, [], false)
  | 0, _ => (0, [], false)
  | f + 1, c :: rest =>
    if c == q then (1, [], false)
    else if isNewline c then (0, [], true)
    else if c == '\\' then
      match rest with
      | [] => (1, [], false)
      | d :: _ =>
        if isNewline d then (1, [], true)
        else
          let e := consumeEscape rest
          let r := consumeStringBody f q (rest.drop e.1)
          (1 + e.1 + r.1, e.2 :: r.2.1, r.2.2)
    else
      let r := consumeStringBody f q rest
      (1 + r.1, c :: r.2.1, r.2.2)

/-- Modelled from the spec: consume a comment body after the opening
(returns characters consumed including the closing delimiter, and the
comment's content); an unterminated comment is consumed to end of input. -/
def consumeCommentBody : List Char → Nat × List Char
  | [] => (0, [])
  | '*' :: '/' :: _ => (2, [])
  | c :: rest =>
    let r := consumeCommentBody rest
    (r.1 + 1, c :: r.2)

/-- Modelled from the spec: non-printable code points, which invalidate a raw
(unquoted) url. -/
def isNonPrintable (c : Char) : Bool :=
  c.toNat ≤ 0x08 || c.toNat == 0x0B || (0x0E ≤ c.toNat && c.toNat ≤ 0x1F) || c.toNat == 0x7F

/-- How the raw (unquoted) part of a url ended. -/
inductive UrlEnd where
  | closed
  | atEof
  | ws
  | bad
deriving DecidableEq, Repr

/-- Modelled from the spec: consume raw url characters up to unescaped
whitespace or `)`; an unescaped quote, `(`, non-printable character, or a
backslash followed by a newline invalidates the url. -/
def consumeRawUrl (fuel : Nat) (l : List Char) : Nat × List Char × UrlEnd :=
  match fuel, l with
  | _, [] => (0, [], .atEof)
  | 0, _ => (0, [], .atEof)
  | f + 1, c :: rest =>
    if c == ')' then (1, [], .closed)
    else if isWhitespace c then (0, [], .ws)
    else if c == '"' || c == '\'' || c == '(' || isNonPrintable c then (0, [], .bad)
    else if c == '\\' then
      match rest with
      | d :: _ =>
        if isNewline d then (0, [], .bad)
        else
          let e := consumeEscape rest
          let r := consumeRawUrl f (rest.drop e.1)
          (1 + e.1 + r.1, e.2 :: r.2.1, r.2.2)
      | [] => (1, ['�'], .atEof)
    else
      let r := consumeRawUrl f rest
      (1 + r.1, c :: r.2.1, r.2.2)

/-- Modelled from the spec: after a url has been invalidated, consume
(discard) input up to and including the next unescaped `)`, or to end of
input, to resynchronize. -/
def consumeBadUrlRest : List Char → Nat
  | [] => 0
  | ')' :: _ => 1
  | '\\' :: _ :: rest => 2 + consumeBadUrlRest rest
  | '\\' :: [] => 1
  | _ :: rest => 1 + consumeBadUrlRest rest

/-- The exact value of a decimal numeric literal, kept as a scaled signed
decimal `num / 10 ^ scale` (the interpretation is `NumVal.toRat`); this
representation is exact, so the spec's double-precision value is recovered
by conversion (see `doubleClamp`). -/
structure NumVal where
  num : Int
  scale : Nat
deriving DecidableEq, Repr

/-- The rational a `NumVal` denotes. -/
def NumVal.toRat (v : NumVal) : ℚ := (v.num : ℚ) / ((10 ^ v.scale : Nat) : ℚ)

/-- Modelled from the spec: the CSS token data model (§3).  `number`,
`percentage` and `dimension` carry the numeric value exactly together with
the integer-representation flag; `hash` carries the "id-like" flag;
`whitespace` and `comment` carry their raw text. -/
inductive Token where
  | whitespace (s : List Char)
  | comment (s : List Char)
  | ident (v : List Char)
  | function (v : List Char)
  | atKeyword (v : List Char)
  | hash (v : List Char) (idLike : Bool)
  | quotedString (v : List Char)
  | badString
  | url (v : List Char)
  | badUrl
  | delim (c : Char)
  | number (intFlag : Bool) (value : NumVal)
  | percentage (intFlag : Bool) (value : NumVal)
  | dimension (intFlag : Bool) (value : NumVal) (unit : List Char)
  | unicodeRange (lo hi : Nat)
  | cdo
  | cdc
  | parenOpen
  | parenClose
  | squareOpen
  | squareClose
  | curlyOpen
  | curlyClose
  | eof
deriving DecidableEq, Repr

/-- Modelled from the spec: consume a url token body, positioned just after
`url(`: leading whitespace is skipped, then either a quoted string (a bad
string making the url bad) or raw url characters; after the content only
whitespace then `)` may follow, anything else invalidating the url; an
invalidated url consumes input up to the next unescaped `)` to
resynchronize; a url unterminated at end of input is malformed. -/
def consumeUrl (l : List Char) : Nat × Token :=
  let w := countWhile isWhitespace l
  let l1 := l.drop w
  match l1 with
  | [] => (w, .badUrl)
  | c :: rest =>
    if c == '"' || c == '\'' then
      let s := consumeStringBody rest.length c rest
      if s.2.2 then
        let b := consumeBadUrlRest (rest.drop s.1)
        (w + 1 + s.1 + b, .badUrl)
      else
        let l2 := rest.drop s.1
        let w2 := countWhile isWhitespace l2
        match l2.drop w2 with
        | ')' :: _ => (w + 1 + s.1 + w2 + 1, .url s.2.1)
        | [] => (w + 1 + s.1 + w2, .badUrl)
        | _ =>
          let b := consumeBadUrlRest (l2.drop w2)
          (w + 1 + s.1 + w2 + b, .badUrl)
    else
      let r := consumeRawUrl l1.length l1
      match r.2.2 with
      | .closed => (w + r.1, .url r.2.1)
      | .atEof => (w + r.1, .badUrl)
      | .bad =>
        let b := consumeBadUrlRest (l1.drop r.1)
        (w + r.1 + b, .badUrl)
      | .ws =>
        let l2 := l1.drop r.1
        let w2 := countWhile isWhitespace l2
        match l2.drop w2 with
        | ')' :: _ => (w + r.1 + w2 + 1, .url r.2.1)
        | [] => (w + r.1 + w2, .badUrl)
        | _ =>
          let b := consumeBadUrlRest (l2.drop w2)
          (w + r.1 + w2 + b, .badUrl)

/-- Modelled from the spec: consume an identifier-like token: a name,
becoming a function token when immediately followed by `(`, with the
case-insensitive name `url` introducing url consumption. -/
def identLike (l : List Char) : Token × Nat :=
  let r := consumeName l.length l
  match (l.drop r.1).head? with
  | some '(' =>
    if eqIgnoreAsciiCase r.2 ['u', 'r', 'l'] then
      let u := consumeUrl (l.drop (r.1 + 1))
      (u.2, r.1 + 1 + u.1)
    else (.function r.2, r.1 + 1)
  | _ => (.ident r.2, r.1)

/-- Modelled from the spec: consume a numeric token: optional sign, integer
digits, optional `.`-fraction, optional exponent; the value is the exact
rational the decimal notation denotes, the integer flag records whether
neither fraction nor exponent was present; an immediately following `%`
makes a percentage and an immediately following identifier start makes a
dimension. -/
def numSign : List Char → Int × Nat × List Char
  | '+' :: rest => (1, 1, rest)
  | '-' :: rest => (-1, 1, rest)
  | l => (1, 0, l)

/-- The optional `.`-fraction of a number: (present, digit count, digits
value, rest). -/
def numFrac : List Char → Bool × Nat × Nat × List Char
  | '.' :: d :: r2 =>
    if isDigit d then
      let k := countWhile isDigit (d :: r2)
      (true, k, natOfDigits 0 ((d :: r2).take k), (d :: r2).drop k)
    else (false, 0, 0, '.' :: d :: r2)
  | l => (false, 0, 0, l)

/-- The optional exponent of a number: (present, negative, characters
consumed, digits value, rest). -/
def numExpo : List Char → Bool × Bool × Nat × Nat × List Char
  | e :: '+' :: d :: r3 =>
    if (e == 'e' || e == 'E') && isDigit d then
      let k := countWhile isDigit (d :: r3)
      (true, false, 2 + k, natOfDigits 0 ((d :: r3).take k), (d :: r3).drop k)
    else (false, false, 0, 0, e :: '+' :: d :: r3)
  | e :: '-' :: d :: r3 =>
    if (e == 'e' || e == 'E') && isDigit d then
      let k := countWhile isDigit (d :: r3)
      (true, true, 2 + k, natOfDigits 0 ((d :: r3).take k), (d :: r3).drop k)
    else (false, false, 0, 0, e :: '-' :: d :: r3)
  | e :: d :: r3 =>
    if (e == 'e' || e == 'E') && isDigit d then
      let k := countWhile isDigit (d :: r3)
      (true, false, 1 + k, natOfDigits 0 ((d :: r3).take k), (d :: r3).drop k)
    else (false, false, 0, 0, e :: d :: r3)
  | l => (false, false, 0, 0, l)

/-- The exact value a parsed number denotes, as a scaled decimal. -/
def numValue (sgn : Int) (ipart fk fpart : Nat) (hasExp expNeg : Bool) (epart : Nat) : NumVal :=
  let m : Int := sgn * ((ipart * 10 ^ fk + fpart : Nat) : Int)
  if hasExp then
    if expNeg then ⟨m, fk + epart⟩
    else ⟨m * ((10 ^ epart : Nat) : Int), fk⟩
  else ⟨m, fk⟩

/-- The token a completed number becomes, given what immediately follows:
`%` makes a percentage, an identifier start makes a dimension. -/
def numToken (intFlag : Bool) (value : NumVal) (l4 : List Char) : Token × Nat :=
  match l4 with
  | '%' :: _ => (.percentage intFlag value, 1)
  | _ =>
    if wouldStartIdentifier l4 then
      let u := consumeName l4.length l4
      (.dimension intFlag value u.2, u.1)
    else (.number intFlag value, 0)

def consumeNumeric (l : List Char) : Token × Nat :=
  let s := numSign l
  let l1 := s.2.2
  let di := countWhile isDigit l1
  let ipart := natOfDigits 0 (l1.take di)
  let f := numFrac (l1.drop di)
  let e := numExpo f.2.2.2
  let l4 := e.2.2.2.2
  let consumed := s.2.1 + di + (if f.1 then 1 + f.2.1 else 0) + e.2.2.1
  let value := numValue s.1 ipart f.2.1 f.2.2.1 e.1 e.2.1 e.2.2.2.1
  let t := numToken (!f.1 && !e.1) value l4
  (t.1, consumed + t.2)

/-- Count up to `allowance` consecutive occurrences of character `q`. -/
def countCharMax (q : Char) : Nat → List Char → Nat
  | 0, _ => 0
  | _ + 1, [] => 0
  | a + 1, c :: rest => if c == q then countCharMax q a rest + 1 else 0

/-- Modelled from the spec: consume a unicode-range token body, positioned
just after `u+`: up to 6 hex digits, then either wildcard `?` digits filling
the remaining allowance (giving a range), or `-` and up to 6 hex digits for
an explicit end, or a singleton range. -/
def consumeUnicodeRange (l : List Char) : Token × Nat :=
  let h := takeHex 6 0 l
  let l1 := l.drop h.1
  let qn := countCharMax '?' (6 - h.1) l1
  if 0 < qn then
    (.unicodeRange (h.2 * 16 ^ qn) (h.2 * 16 ^ qn + (16 ^ qn - 1)), h.1 + qn)
  else
    match l1 with
    | '-' :: d :: r =>
      if isHexDigit d then
        let h2 := takeHex 6 0 (d :: r)
        (.unicodeRange h.2 h2.2, h.1 + 1 + h2.1)
      else (.unicodeRange h.2 h.2, h.1)
    | _ => (.unicodeRange h.2 h.2, h.1)

/-- Modelled from the spec: produce the next token of the input together
with the number of characters consumed; at end of input, EOF with nothing
consumed (idempotently re-producible). -/
def nextToken : List Char → Token × Nat
  | [] => (.eof, 0)
  | c :: rest =>
    if isWhitespace c then
      let n := countWhile isWhitespace rest
      (.whitespace (c :: rest.take n), 1 + n)
    else if c == '/' then
      match rest with
      | '*' :: r =>
        let m := consumeCommentBody r
        (.comment m.2, 2 + m.1)
      | _ => (.delim '/', 1)
    else if c == '"' || c == '\'' then
      let s := consumeStringBody rest.length c rest
      (if s.2.2 then .badString else .quotedString s.2.1, 1 + s.1)
    else if c == '#' then
      match rest with
      | d :: _ =>
        if isNameChar d || isValidEscape rest then
          let r := consumeName rest.length rest
          (.hash r.2 (wouldStartIdentifier rest), 1 + r.1)
        else (.delim '#', 1)
      | [] => (.delim '#', 1)
    else if c == '(' then (.parenOpen, 1)
    else if c == ')' then (.parenClose, 1)
    else if c == '[' then (.squareOpen, 1)
    else if c == ']' then (.squareClose, 1)
    else if c == '{' then (.curlyOpen, 1)
    else if c == '}' then (.curlyClose, 1)
    else if c == '<' then
      match rest with
      | '!' :: '-' :: '-' :: _ => (.cdo, 4)
      | _ => (.delim '<', 1)
    else if c == '@' then
      if wouldStartIdentifier rest then
        let r := consumeName rest.length rest
        (.atKeyword r.2, 1 + r.1)
      else (.delim '@', 1)
    else if c == '\\' then
      if isValidEscape (c :: rest) then identLike (c :: rest)
      else (.delim '\\', 1)
    else if isDigit c then consumeNumeric (c :: rest)
    else if c == '+' || c == '.' then
      if startsNumber (c :: rest) then consumeNumeric (c :: rest) else (.delim c, 1)
    else if c == '-' then
      match rest with
      | '-' :: '>' :: _ => (.cdc, 3)
      | _ =>
        if startsNumber (c :: rest) then consumeNumeric (c :: rest)
        else if wouldStartIdentifier (c :: rest) then identLike (c :: rest)
        else (.delim '-', 1)
    else if c == 'u' || c == 'U' then
      match rest with
      | '+' :: d :: _ =>
        if isHexDigit d || d == '?' then
          let u := consumeUnicodeRange rest.tail
          (u.1, 2 + u.2)
        else identLike (c :: rest)
      | _ => identLike (c :: rest)
    else if isNameStart c then identLike (c :: rest)
    else (.delim c, 1)

/-- Modelled from the spec: the token stream of an input, each token paired
with the contiguous span of raw input it was produced from; the stream ends
with a single EOF token of empty span.  The fuel argument is adequate
whenever it exceeds the input length. -/
def tokenizeFuel : Nat → List Char → List (Token × List Char)
  | 0, _ => []
  | _ + 1, [] => [(.eof, [])]
  | f + 1, c :: rest =>
    let r := nextToken (c :: rest)
    (r.1, (c :: rest).take r.2) :: tokenizeFuel f ((c :: rest).drop r.2)

/-- The token stream of an input together with source spans. -/
def tokenizeSpans (l : List Char) : List (Token × List Char) :=
  tokenizeFuel (l.length + 1) l

/-- The token stream of an input. -/
def tokenize (l : List Char) : List Token :=
  (tokenizeSpans l).map Prod.fst

/-- Modelled from the spec: the `Parser` of the position-cursor layer — a
borrowed input together with the current source position (an offset into the
input; ordering matches input order). -/
structure Parser where
  input : List Char
  pos : Nat
deriving DecidableEq, Repr

/-- Modelled from the spec: `position()` returns the current source
position. -/
def Parser.position (p : Parser) : Nat := p.pos

/-- Modelled from the spec: `reset(pos)` unconditionally moves the cursor to
a previously obtained position. -/
def Parser.reset (p : Parser) (s : Nat) : Parser := { p with pos := s }

/-- The input remaining after the current position. -/
def Parser.remaining (p : Parser) : List Char := p.input.drop p.pos

/-- Modelled from the spec: `next()` returns the next token or an
end-of-input signal, advancing the position by exactly the token's consumed
span. -/
def Parser.next (p : Parser) : Except Unit (Token × Parser) :=
  match p.remaining with
  | [] => .error ()
  | c :: rest =>
    let r := nextToken (c :: rest)
    .ok (r.1, { p with pos := p.pos + r.2 })

/-- A parsing operation in the crate's conventions: it reads the parser,
returns `Ok` or the uniform payload-less failure, and leaves the parser in
some state (meaningful on success, arbitrary on failure). -/
def ParseOp (α : Type) : Type := Parser → Except Unit α × Parser

/-- Modelled from the spec: `Parser::try` — invoke the operation once from
the current position; on failure restore the cursor to the position saved
before the call; on success keep whatever the operation consumed. -/
def Parser.tryParse (op : ParseOp α) (p : Parser) : Except Unit α × Parser :=
  let start := p.position
  match op p with
  | (.ok v, p2) => (.ok v, p2)
  | (.error e, p2) => (.error e, p2.reset start)

/-- Modelled from the spec: the Delimiter Set — a bitset-sized set drawn
from `{`, `)`, `]`, `;`, `!`, `,` (end of input is an implied stop). -/
structure Delimiters where
  curlyOpen : Bool
  parenClose : Bool
  squareClose : Bool
  semicolon : Bool
  bang : Bool
  comma : Bool
deriving DecidableEq, Repr

/-- The empty delimiter set. -/
def Delimiters.none : Delimiters := ⟨false, false, false, false, false, false⟩

/-- The delimiter set containing only the top-level comma. -/
def Delimiters.commaOnly : Delimiters := ⟨false, false, false, false, false, true⟩

/-- The delimiter set containing only the top-level semicolon. -/
def Delimiters.semicolonOnly : Delimiters := ⟨false, false, false, true, false, false⟩

/-- The delimiter set stopping at a top-level `;` or `{`. -/
def Delimiters.atRulePrelude : Delimiters := ⟨true, false, false, true, false, false⟩

/-- Whether a token matches a delimiter of the set. -/
def matchesDelim (d : Delimiters) (t : Token) : Bool :=
  (d.curlyOpen && t == .curlyOpen) || (d.parenClose && t == .parenClose) ||
  (d.squareClose && t == .squareClose) || (d.semicolon && t == .delim ';') ||
  (d.bang && t == .delim '!') || (d.comma && t == .delim ',')

/-- The closing token a block-opening token expects (a function token opens
a parenthesis block). -/
def closerFor : Token → Option Token
  | .parenOpen => some .parenClose
  | .squareOpen => some .squareClose
  | .curlyOpen => some .curlyClose
  | .function _ => some .parenClose
  | _ => Option.none

/-- Modelled from the spec: delimiter-scoped consumption over a token
stream.  `stack` holds the closing tokens of the currently open nested
blocks (innermost first); a delimiter stops consumption only when the stack
is empty, i.e. at nesting depth zero relative to the scope where consumption
started; inside a nested block every token is skipped; end of input always
stops.  Returns the number of tokens consumed. -/
def consumeUntil (d : Delimiters) : List Token → List Token → Nat
  | _, [] => 0
  | [], t :: ts =>
    if t == .eof then 0
    else if matchesDelim d t then 0
    else
      match closerFor t with
      | some c => 1 + consumeUntil d [c] ts
      | Option.none => 1 + consumeUntil d [] ts
  | c :: cs, t :: ts =>
    if t == .eof then 0
    else if t == c then 1 + consumeUntil d cs ts
    else
      match closerFor t with
      | some c2 => 1 + consumeUntil d (c2 :: c :: cs) ts
      | Option.none => 1 + consumeUntil d (c :: cs) ts

/-- One step of the nesting-stack evolution: entering a block pushes its
expected closer, its closer pops it. -/
def stackStep (stack : List Token) (t : Token) : List Token :=
  match stack with
  | [] =>
    match closerFor t with
    | some c => [c]
    | Option.none => []
  | c :: cs =>
    if t == c then cs
    else
      match closerFor t with
      | some c2 => c2 :: c :: cs
      | Option.none => c :: cs

/-- The nesting stack after reading a list of tokens. -/
def stackAfter (stack : List Token) (ts : List Token) : List Token :=
  ts.foldl stackStep stack

/-- Modelled from the spec: skip (discard) tokens until the matching closing
bracket of the current block has been consumed, descending through nested
blocks; an unterminated block is consumed up to end of input. -/
def skipBlock : List Token → List Token → Nat
  | _, [] => 0
  | [], _ => 0
  | c :: cs, t :: ts =>
    if t == .eof then 0
    else if t == c then 1 + skipBlock cs ts
    else
      match closerFor t with
      | some c2 => 1 + skipBlock (c2 :: c :: cs) ts
      | Option.none => 1 + skipBlock (c :: cs) ts

/-- Whether a token is whitespace or a comment. -/
def isWsOrComment : Token → Bool
  | .whitespace _ => true
  | .comment _ => true
  | _ => false

/-- Modelled from the spec: the caller-supplied capability set of a
declaration-list parse: interpret a declaration's value (given its name and
the value's tokens), and interpret an at-rule (given its name and prelude
tokens); returning `none` signals the uniform parse failure. -/
structure DeclCallbacks (α : Type) where
  parseValue : List Char → List Token → Option α
  parseAtRule : List Char → List Token → Option α

/-- Modelled from the spec: consume a list of declarations.  Whitespace,
comments and stray `;` are skipped; an at-keyword introduces an at-rule
whose prelude runs to the next top-level `;` or `{` (a `{` block being
consumed whole); an identifier must be followed (after whitespace) by `:`
and a value running to the next top-level `;`; on any mismatch or callback
failure the malformed item is discarded up to the next top-level `;` and
scanning continues; per-item failures are never surfaced.  The fuel is
adequate whenever it exceeds the token count. -/
def declListFuel (cb : DeclCallbacks α) : Nat → List Token → List α
  | 0, _ => []
  | _ + 1, [] => []
  | f + 1, t :: ts =>
    match t with
    | .whitespace _ => declListFuel cb f ts
    | .comment _ => declListFuel cb f ts
    | .delim ';' => declListFuel cb f ts
    | .eof => []
    | .atKeyword name =>
      let n := consumeUntil Delimiters.atRulePrelude [] ts
      let prelude := ts.take n
      let rest :=
        match ts.drop n with
        | .curlyOpen :: ts2 => ts2.drop (skipBlock [.curlyClose] ts2)
        | other => other
      match cb.parseAtRule name prelude with
      | some v => v :: declListFuel cb f rest
      | Option.none => declListFuel cb f rest
    | .ident name =>
      match ts.dropWhile isWsOrComment with
      | .delim ':' :: ts2 =>
        let n := consumeUntil Delimiters.semicolonOnly [] ts2
        let rest := ts2.drop n
        match cb.parseValue name (ts2.take n) with
        | some v => v :: declListFuel cb f rest
        | Option.none => declListFuel cb f rest
      | _ =>
        let n := consumeUntil Delimiters.semicolonOnly [] ts
        declListFuel cb f (ts.drop n)
    | _ =>
      let n := consumeUntil Delimiters.semicolonOnly [] ts
      declListFuel cb f (ts.drop n)

/-- Consume a list of declarations from a token stream. -/
def declList (cb : DeclCallbacks α) (ts : List Token) : List α :=
  declListFuel cb (ts.length + 1) ts

/-- The largest finite double-precision magnitude, `(2 − 2⁻⁵²)·2¹⁰²³`, as an
exact rational. -/
def doubleMax : ℚ := ((2 ^ 53 - 1 : ℤ) : ℚ) * 2 ^ 971

/-- A double-precision value in the embedding: an exact finite rational or a
signed infinity. -/
inductive DoubleVal where
  | finite (q : ℚ)
  | posInf
  | negInf
deriving DecidableEq, Repr

/-- Whether a double value is infinite. -/
def DoubleVal.isInf : DoubleVal → Bool
  | .posInf => true
  | .negInf => true
  | .finite _ => false

/-- Modelled from the spec: the standard decimal-to-double conversion's
overflow behaviour — a value whose magnitude exceeds the double-precision
range clamps to the representable magnitude (infinity) rather than failing;
in-range values are kept exact here (rounding is not modelled). -/
def doubleClamp (q : ℚ) : DoubleVal :=
  if doubleMax < q then .posInf
  else if q < -doubleMax then .negInf
  else .finite q

/-- Value of a list of hexadecimal digits (most significant first). -/
def hexValOf (acc : Nat) : List Char → Nat
  | [] => acc
  | c :: rest => hexValOf (acc * 16 + hexDigitVal c) rest

/-- The concrete capability set of the recovery scenario: the value callback
rejects an (all-whitespace) empty value and returns the name with the value's
non-whitespace tokens; the at-rule callback rejects every at-rule. -/
def sampleDeclCallbacks : DeclCallbacks (List Char × List Token) where
  parseValue := fun name v =>
    let v2 := v.filter (fun t => !isWsOrComment t)
    if v2.isEmpty then Option.none else some (name, v2)
  parseAtRule := fun _ _ => Option.none

/-- First-match case selection of `match_ignore_ascii_case!` (`src/lib.rs`):
compare the scrutinee against the case strings in source order with
ASCII-case-insensitive equality; the first match wins, otherwise the
fallback is returned. -/
def matchCases (v : List Char) (fallback : α) : List (List Char × α) → α
  | [] => fallback
  | (s, r) :: rest => if eqIgnoreAsciiCase v s then r else matchCases v fallback rest

/-- The expansion of `match_ignore_ascii_case!` (`src/lib.rs`): the
scrutinee expression — modelled as a state transformer so that its
evaluations are observable — is evaluated exactly once, and its value is
matched against the cases in source order. -/
def matchIgnoreAsciiCase (scrutinee : Nat → List Char × Nat)
    (cases : List (List Char × α)) (fallback : α) (state : Nat) : α × Nat :=
  let e := scrutinee state
  (matchCases e.1 fallback cases, e.2)

/-- Equivalence of exact numeric values (equality of the denoted rationals,
decided by cross multiplication). -/
def NumVal.equiv (a b : NumVal) : Bool :=
  a.num * ((10 ^ b.scale : Nat) : Int) == b.num * ((10 ^ a.scale : Nat) : Int)

/-- Semantic-value equivalence of tokens: same kind, with equal semantic
value for value-bearing tokens; whitespace and comments compare by kind
only (exact-text round trip is not required for them). -/
def tokenEquiv : Token → Token → Bool
  | .whitespace _, .whitespace _ => true
  | .comment _, .comment _ => true
  | .number f v, .number f2 v2 => f == f2 && NumVal.equiv v v2
  | .percentage f v, .percentage f2 v2 => f == f2 && NumVal.equiv v v2
  | .dimension f v u, .dimension f2 v2 u2 => f == f2 && NumVal.equiv v v2 && u == u2
  | t, t2 => t == t2

/-- The sixteen hexadecimal digit characters. -/
def hexDigitChar : Nat → Char
  | 0 => '0' | 1 => '1' | 2 => '2' | 3 => '3' | 4 => '4' | 5 => '5'
  | 6 => '6' | 7 => '7' | 8 => '8' | 9 => '9' | 10 => 'a' | 11 => 'b'
  | 12 => 'c' | 13 => 'd' | 14 => 'e' | 15 => 'f' | _ => '0'

/-- A code point as exactly six hexadecimal digits (most significant
first); using the maximal escape length makes the end of the escape
unambiguous without a trailing space. -/
def hex6 (n : Nat) : List Char :=
  [hexDigitChar (n / 16 ^ 5 % 16), hexDigitChar (n / 16 ^ 4 % 16),
   hexDigitChar (n / 16 ^ 3 % 16), hexDigitChar (n / 16 ^ 2 % 16),
   hexDigitChar (n / 16 % 16), hexDigitChar (n % 16)]

/-- The body of a serialized escape (what follows the backslash): six hex
digits for any code point except U+0000, which (being the one value a hex
escape cannot denote) is written literally. -/
def escBody (c : Char) : List Char :=
  if c = '\x00' then [c] else hex6 c.toNat

/-- Modelled from the spec: the identifier/string escaping primitive of the
serializer collaborator — a backslash escape denoting the given code
point. -/
def escChar (c : Char) : List Char :=
  '\\' :: escBody c

/-- Serialize the tail of a name: identifier code points are written
directly, anything else as an escape. -/
def serializeName (v : List Char) : List Char :=
  (v.map fun c => if isNameChar c then [c] else escChar c).flatten

/-- Modelled from the spec: `serialize_identifier` — a textual form that
re-tokenizes to the given name in identifier-start position; the first code
point is always written as an escape (a valid escape is an identifier
start), the rest as a name tail. -/
def serializeIdentText : List Char → List Char
  | [] => []
  | c :: rest => escChar c ++ serializeName rest

/-- Serialize one string-body character: characters that are consumed
literally inside a quoted string (anything but the quote, a backslash, or
whitespace) are written directly, the rest as escapes. -/
def serializeStringChar (c : Char) : List Char :=
  if c = '"' || c = '\\' || isWhitespace c then escChar c else [c]

/-- Modelled from the spec: `serialize_string` — a double-quoted textual
form that re-tokenizes to the given string value. -/
def serializeStringText (v : List Char) : List Char :=
  '"' :: (v.map serializeStringChar).flatten ++ ['"']

/-- The decimal digit characters. -/
def digitChar : Nat → Char
  | 0 => '0' | 1 => '1' | 2 => '2' | 3 => '3' | 4 => '4'
  | 5 => '5' | 6 => '6' | 7 => '7' | 8 => '8' | _ => '9'

/-- The decimal digits of a natural number (most significant first); the
fuel is adequate whenever it exceeds the number. -/
def natDigits : Nat → Nat → List Char
  | 0, _ => []
  | f + 1, n => if n < 10 then [digitChar n] else natDigits f (n / 10) ++ [digitChar (n % 10)]

/-- The decimal text of an integer. -/
def intText (i : Int) : List Char :=
  if i < 0 then '-' :: natDigits (i.natAbs + 1) i.natAbs else natDigits (i.natAbs + 1) i.natAbs

/-- Serialize a numeric value: an integer-flagged value as its integer
text, any other value in exponent notation `<num>e-<scale>`, which denotes
`num · 10⁻ˢᶜᵃˡᵉ` exactly and re-tokenizes with the integer flag clear. -/
def serializeNum (intFlag : Bool) (v : NumVal) : List Char :=
  if intFlag then intText v.num
  else intText v.num ++ 'e' :: '-' :: natDigits (v.scale + 1) v.scale

/-- Serialize an unrestricted (non-id-like) hash value: its first code
point is a digit or `-` and is written directly so the text does not start
an identifier; the sole unrestricted shape ending in U+FFFD (`-` followed
by U+FFFD, produced only by an invalid escape) is re-emitted as the invalid
escape backslash-newline. -/
def serializeHashUnrestricted : List Char → List Char
  | ['-', '�'] => ['-', '\\', '\n']
  | c :: rest => c :: serializeName rest
  | [] => []

/-- Modelled from the spec: the serializer collaborator — for each token
with a defined serialization, a textual form that re-tokenizes to an
equivalent token (`none` for the malformed tokens and EOF, which have no
defined serialization). -/
def serializeToken : Token → Option (List Char)
  | .whitespace s => some s
  | .comment s => some ('/' :: '*' :: s ++ ['*', '/'])
  | .ident v => some (serializeIdentText v)
  | .function v => some (serializeIdentText v ++ ['('])
  | .atKeyword v => some ('@' :: serializeIdentText v)
  | .hash v idLike =>
    some ('#' :: (if idLike then serializeIdentText v else serializeHashUnrestricted v))
  | .quotedString v => some (serializeStringText v)
  | .url v => some ('u' :: 'r' :: 'l' :: '(' :: serializeStringText v ++ [')'])
  | .delim c => some [c]
  | .number intFlag v => some (serializeNum intFlag v)
  | .percentage intFlag v => some (serializeNum intFlag v ++ ['%'])
  | .dimension intFlag v unit => some (serializeNum intFlag v ++ serializeIdentText unit)
  | .unicodeRange lo hi => some ('u' :: '+' :: hex6 lo ++ '-' :: hex6 hi)
  | .cdo => some ['<', '!', '-', '-']
  | .cdc => some ['-', '-', '>']
  | .parenOpen => some ['(']
  | .parenClose => some [')']
  | .squareOpen => some ['[']
  | .squareClose => some [']']
  | .curlyOpen => some ['{']
  | .curlyClose => some ['}']
  | .badString => Option.none
  | .badUrl => Option.none
  | .eof => Option.none

/-- The well-formedness every token produced by the tokenizer satisfies
(proved in `tokenize_wf`): name payloads are non-empty, a function token is
never named `url`, an unrestricted hash value has one of the shapes the
tokenizer can actually produce, integer-flagged numeric values have scale
zero, whitespace tokens start with a whitespace code point, unicode-range
bounds fit in six hex digits, and a delimiter token's character alone
re-tokenizes to itself. -/
def WFToken : Token → Bool
  | .whitespace s =>
    match s with
    | [] => false
    | c :: _ => isWhitespace c
  | .ident v => !v.isEmpty
  | .function v => !v.isEmpty && !eqIgnoreAsciiCase v ['u', 'r', 'l']
  | .atKeyword v => !v.isEmpty
  | .hash v idLike =>
    !v.isEmpty &&
      (idLike ||
        (match v with
         | '-' :: rest =>
           (match rest with
            | [] => true
            | ['�'] => true
            | d :: _ => isDigit d)
         | c :: _ => isDigit c
         | [] => false))
  | .number intFlag v => !intFlag || v.scale == 0
  | .percentage intFlag v => !intFlag || v.scale == 0
  | .dimension intFlag v unit => (!intFlag || v.scale == 0) && !unit.isEmpty
  | .unicodeRange lo hi => lo < 16 ^ 6 && hi < 16 ^ 6
  | .delim c => nextToken [c] == (.delim c, 1)
  | _ => true

/-- The value shapes an unrestricted (non-id-like) hash token can carry:
`-` followed by nothing, a lone U+FFFD (from an invalid escape), or a digit
block start; or a leading digit. -/
def hashShape : List Char → Bool
  | '-' :: rest =>
    (match rest with
     | [] => true
     | ['\uFFFD'] => true
     | d :: _ => isDigit d)
  | c :: _ => isDigit c
  | [] => false

/-!
## Theorems

Helper lemmas first, then one named theorem per claim (with witnesses).
-/

theorem countWhile_neg (p : Char → Bool) (c : Char) (rest : List Char) (h : p c = false) :
    countWhile p (c :: rest) = 0 := by
  simp [countWhile, h]

theorem countWhile_pos (p : Char → Bool) (c : Char) (rest : List Char) (h : p c = true) :
    countWhile p (c :: rest) = countWhile p rest + 1 := by
  simp [countWhile, h]

theorem consumeName_pos (f : Nat) (c : Char) (rest : List Char)
    (h : isNameChar c = true ∨ c = '\\') :
    1 ≤ (consumeName (f + 1) (c :: rest)).1 := by
  rcases h with h | rfl
  · simp [consumeName, h]
  · unfold consumeName
    split <;> simp_all <;> omega

theorem identLike_pos (c : Char) (rest : List Char)
    (h : isNameChar c = true ∨ c = '\\') :
    1 ≤ (identLike (c :: rest)).2 := by
  have h1 : 1 ≤ (consumeName (c :: rest).length (c :: rest)).1 := by
    simpa using consumeName_pos rest.length c rest h
  unfold identLike
  simp only []
  split <;> try split
  all_goals simp_all <;> omega

theorem numSign_other (c : Char) (rest : List Char) (h1 : c ≠ '+') (h2 : c ≠ '-') :
    numSign (c :: rest) = (1, 0, c :: rest) := by
  unfold numSign
  split <;> simp_all

theorem consumeNumeric_pos (l : List Char) (h : startsNumber l = true) :
    1 ≤ (consumeNumeric l).2 := by
  unfold startsNumber at h
  split at h
  · simp at h
  · simp [consumeNumeric, numSign]; omega
  · simp [consumeNumeric, numSign]; omega
  · simp [consumeNumeric, numSign, numFrac,
      countWhile_neg _ _ _ (by decide : isDigit '.' = false), h]
    omega
  · rename_i c rest h1 h2 h3
    simp [consumeNumeric, numSign_other c rest h1 h2, countWhile_pos _ _ _ h]
    omega

theorem startsNumber_digit (c : Char) (rest : List Char) (h : isDigit c = true) :
    startsNumber (c :: rest) = true := by
  unfold startsNumber
  split <;> simp_all <;> first | rfl | (exfalso; revert h; decide)
theorem isNameChar_of_start (c : Char) (h : isNameStart c = true) : isNameChar c = true := by
  simp [isNameChar, h]
set_option maxHeartbeats 4000000 in
theorem nextToken_pos (c : Char) (rest : List Char) :
    1 ≤ (nextToken (c :: rest)).2 := by
  by_cases h1 : isWhitespace c = true
  · simp [nextToken, h1]
  by_cases h2 : c = '/'
  · subst h2; simp [nextToken, *]
    split <;> simp_arith
  by_cases h3 : c = '"' ∨ c = '\''
  · rcases h3 with rfl | rfl <;> simp [nextToken, *] <;> simp_arith
  by_cases h4 : c = '#'
  · subst h4; simp [nextToken, *]
    split
    · split <;> simp_arith
    · simp_arith
  by_cases h5 : c = '('
  · subst h5; simp [nextToken, *]
  by_cases h6 : c = ')'
  · subst h6; simp [nextToken, *]
  by_cases h7 : c = '['
  · subst h7; simp [nextToken, *]
  by_cases h8 : c = ']'
  · subst h8; simp [nextToken, *]
  by_cases h9 : c = '{'
  · subst h9; simp [nextToken, *]
  by_cases h10 : c = '}'
  · subst h10; simp [nextToken, *]
  by_cases h11 : c = '<'
  · subst h11; simp [nextToken, *]
    split <;> simp_arith
  by_cases h12 : c = '@'
  · subst h12; simp [nextToken, *]
    split <;> simp_arith
  by_cases h13 : c = '\\'
  · subst h13; simp [nextToken, *]
    split
    · exact identLike_pos _ _ (Or.inr rfl)
    · simp_arith
  by_cases h14 : isDigit c = true
  · simp [nextToken, *]
    exact consumeNumeric_pos _ (startsNumber_digit c rest h14)
  by_cases h15 : c = '+' ∨ c = '.'
  · rcases h15 with rfl | rfl <;> simp [nextToken, *] <;>
      · split
        · rename_i hsn; exact consumeNumeric_pos _ hsn
        · simp_arith
  by_cases h16 : c = '-'
  · subst h16; simp [nextToken, *]
    split
    · simp_arith
    · split
      · rename_i hsn; exact consumeNumeric_pos _ hsn
      · split
        · exact identLike_pos _ _ (Or.inl (by decide))
        · simp_arith
  by_cases h17 : c = 'u' ∨ c = 'U'
  · rcases h17 with rfl | rfl <;> simp [nextToken, *] <;>
      · split
        · split
          · simp_arith
          · exact identLike_pos _ _ (Or.inl (by decide))
        · exact identLike_pos _ _ (Or.inl (by decide))
  by_cases h18 : isNameStart c = true
  · simp [nextToken, *]
    exact identLike_pos _ _ (Or.inl (isNameChar_of_start c h18))
  · simp [nextToken, *]
theorem consumeUrl_ne_eof (l : List Char) : (consumeUrl l).2 ≠ Token.eof := by
  unfold consumeUrl
  simp only []
  repeat' split
  all_goals simp
theorem numToken_ne_eof (b : Bool) (v : NumVal) (l : List Char) :
    (numToken b v l).1 ≠ Token.eof := by
  unfold numToken
  split
  · simp
  · split <;> simp
theorem consumeNumeric_ne_eof (l : List Char) : (consumeNumeric l).1 ≠ Token.eof := by
  exact numToken_ne_eof _ _ _
theorem identLike_ne_eof (l : List Char) : (identLike l).1 ≠ Token.eof := by
  unfold identLike
  simp only []
  split
  · split
    · exact consumeUrl_ne_eof _
    · simp
  · simp
theorem consumeUnicodeRange_ne_eof (l : List Char) : (consumeUnicodeRange l).1 ≠ Token.eof := by
  unfold consumeUnicodeRange
  simp only []
  split
  · simp
  · split
    · split <;> simp
    · simp
set_option maxHeartbeats 4000000 in
theorem nextToken_ne_eof (c : Char) (rest : List Char) :
    (nextToken (c :: rest)).1 ≠ Token.eof := by
  by_cases h1 : isWhitespace c = true
  · simp [nextToken, h1]
  by_cases h2 : c = '/'
  · subst h2; simp [nextToken, *]
    split <;> simp
  by_cases h3 : c = '"' ∨ c = '\''
  · rcases h3 with rfl | rfl <;> simp [nextToken, *] <;> split <;> simp
  by_cases h4 : c = '#'
  · subst h4; simp [nextToken, *]
    split
    · split <;> simp
    · simp
  by_cases h5 : c = '('
  · subst h5; simp [nextToken, *]
  by_cases h6 : c = ')'
  · subst h6; simp [nextToken, *]
  by_cases h7 : c = '['
  · subst h7; simp [nextToken, *]
  by_cases h8 : c = ']'
  · subst h8; simp [nextToken, *]
  by_cases h9 : c = '{'
  · subst h9; simp [nextToken, *]
  by_cases h10 : c = '}'
  · subst h10; simp [nextToken, *]
  by_cases h11 : c = '<'
  · subst h11; simp [nextToken, *]
    split <;> simp
  by_cases h12 : c = '@'
  · subst h12; simp [nextToken, *]
    split <;> simp
  by_cases h13 : c = '\\'
  · subst h13; simp [nextToken, *]
    split
    · exact identLike_ne_eof _
    · simp
  by_cases h14 : isDigit c = true
  · simp [nextToken, *]
    exact consumeNumeric_ne_eof _
  by_cases h15 : c = '+' ∨ c = '.'
  · rcases h15 with rfl | rfl <;> simp [nextToken, *] <;>
      · split
        · exact consumeNumeric_ne_eof _
        · simp
  by_cases h16 : c = '-'
  · subst h16; simp [nextToken, *]
    split
    · simp
    · split
      · exact consumeNumeric_ne_eof _
      · split
        · exact identLike_ne_eof _
        · simp
  by_cases h17 : c = 'u' ∨ c = 'U'
  · rcases h17 with rfl | rfl <;> simp [nextToken, *] <;>
      · split
        · split
          · exact consumeUnicodeRange_ne_eof _
          · exact identLike_ne_eof _
        · exact identLike_ne_eof _
  by_cases h18 : isNameStart c = true
  · simp [nextToken, *]
    exact identLike_ne_eof _
  · simp [nextToken, *]


theorem drop_next_le (c : Char) (rest : List Char) :
    (List.drop (nextToken (c :: rest)).2 (c :: rest)).length ≤ rest.length := by
  have h1 := nextToken_pos c rest
  cases hn : (nextToken (c :: rest)).2 with
  | zero => omega
  | succ m => simp [List.drop_succ_cons]

theorem tokenizeFuel_join (f : Nat) (l : List Char) (h : l.length < f) :
    ((tokenizeFuel f l).map Prod.snd).flatten = l := by
  induction f generalizing l with
  | zero => omega
  | succ f ih =>
    cases l with
    | nil => simp [tokenizeFuel]
    | cons c rest =>
      have hlen := drop_next_le c rest
      have hrec := ih (List.drop (nextToken (c :: rest)).2 (c :: rest)) (by simp at h; omega)
      simp only [tokenizeFuel, List.map_cons, List.flatten_cons, hrec]
      exact List.take_append_drop _ _

theorem tokenizeFuel_eof (f : Nat) (l : List Char) (h : l.length < f) :
    ∃ body, tokenizeFuel f l = body ++ [(Token.eof, [])] ∧
      ∀ p ∈ body, p.1 ≠ Token.eof ∧ p.2 ≠ ([] : List Char) := by
  induction f generalizing l with
  | zero => omega
  | succ f ih =>
    cases l with
    | nil => exact ⟨[], by simp [tokenizeFuel]⟩
    | cons c rest =>
      have hlen := drop_next_le c rest
      obtain ⟨body, hb, hprop⟩ := ih (List.drop (nextToken (c :: rest)).2 (c :: rest))
        (by simp at h; omega)
      refine ⟨((nextToken (c :: rest)).1, (c :: rest).take (nextToken (c :: rest)).2) :: body, ?_, ?_⟩
      · simp [tokenizeFuel, hb]
      · intro p hp
        rcases List.mem_cons.mp hp with rfl | hp2
        · refine ⟨nextToken_ne_eof c rest, ?_⟩
          have h1 := nextToken_pos c rest
          cases hn : (nextToken (c :: rest)).2 with
          | zero => omega
          | succ m => simp
        · exact hprop p hp2

theorem tokenizeFuel_irrel (f g : Nat) (l : List Char) (hf : l.length < f) (hg : l.length < g) :
    tokenizeFuel f l = tokenizeFuel g l := by
  induction f generalizing g l with
  | zero => omega
  | succ f ih =>
    cases g with
    | zero => omega
    | succ g =>
      cases l with
      | nil => simp [tokenizeFuel]
      | cons c rest =>
        have hlen := drop_next_le c rest
        simp only [tokenizeFuel]
        rw [ih g (List.drop (nextToken (c :: rest)).2 (c :: rest))
          (by simp at hf; omega) (by simp at hg; omega)]

theorem tokenizeSpans_cons (c : Char) (rest : List Char) :
    tokenizeSpans (c :: rest) =
      ((nextToken (c :: rest)).1, (c :: rest).take (nextToken (c :: rest)).2) ::
        tokenizeSpans (List.drop (nextToken (c :: rest)).2 (c :: rest)) := by
  have hlen := drop_next_le c rest
  simp only [tokenizeSpans, List.length_cons, tokenizeFuel]
  congr 1
  exact tokenizeFuel_irrel _ _ _ (by omega) (by omega)

theorem tokenize_cons (c : Char) (rest : List Char) :
    tokenize (c :: rest) =
      (nextToken (c :: rest)).1 :: tokenize (List.drop (nextToken (c :: rest)).2 (c :: rest)) := by
  simp [tokenize, tokenizeSpans_cons]


theorem consumeStringBody_nl (pre : List Char) (f : Nat) (q n : Char) (post : List Char)
    (hf : pre.length < f) (hq : isNewline q = false) (hnl : isNewline n = true)
    (hpre : ∀ c ∈ pre, c ≠ q ∧ isNewline c = false ∧ c ≠ '\\') :
    consumeStringBody f q (pre ++ n :: post) = (pre.length, pre, true) := by
  induction pre generalizing f with
  | nil =>
    cases f with
    | zero => omega
    | succ f =>
      have hnq : (n == q) = false := by
        by_cases he : n = q
        · subst he; simp [hq] at hnl
        · simp [he]
      simp [consumeStringBody, hnq, hnl]
  | cons c pre ih =>
    cases f with
    | zero => simp at hf
    | succ f =>
      obtain ⟨hcq, hcn, hcb⟩ := hpre c (by simp)
      have h1 : (c == q) = false := by simp [hcq]
      have h2 : (c == '\\') = false := by simp [hcb]
      simp only [List.cons_append, consumeStringBody, h1, hcn, h2,
        Bool.false_eq_true, if_false, List.append_eq]
      rw [ih f (by simp at hf; omega) (fun d hd => hpre d (by simp [hd]))]
      simp [Nat.add_comm]

theorem nextToken_badString (pre post : List Char) (n : Char)
    (hnl : isNewline n = true)
    (hpre : ∀ c ∈ pre, c ≠ '"' ∧ isNewline c = false ∧ c ≠ '\\') :
    nextToken ('"' :: (pre ++ n :: post)) = (Token.badString, 1 + pre.length) := by
  have hs := consumeStringBody_nl pre (pre ++ n :: post).length '"' n post
    (by simp only [List.length_append, List.length_cons]; omega) (by decide) hnl hpre
  simp only [List.length_append, List.length_cons] at hs
  simp [nextToken, hs, (by decide : isWhitespace '"' = false)]

/-- C3: every token other than EOF corresponds to a non-empty contiguous span
of the input, the concatenation of the spans of all tokens emitted until EOF
reconstructs the input exactly (hence no gaps and no overlaps), the stream
contains exactly one EOF token (at the end, with empty span), and the empty
input yields exactly one EOF token and nothing else. -/
theorem spanCompleteness (l : List Char) :
    ((tokenizeSpans l).map Prod.snd).flatten = l ∧
    (∀ p ∈ tokenizeSpans l, p.1 ≠ Token.eof → p.2 ≠ ([] : List Char)) ∧
    (∃ body, tokenizeSpans l = body ++ [(Token.eof, [])] ∧
      ∀ p ∈ body, p.1 ≠ Token.eof) ∧
    tokenizeSpans ([] : List Char) = [(Token.eof, [])] := by
  obtain ⟨body, hb, hprop⟩ := tokenizeFuel_eof (l.length + 1) l (by omega)
  have hbs : tokenizeSpans l = body ++ [(Token.eof, [])] := hb
  refine ⟨tokenizeFuel_join _ _ (by omega), ?_, ⟨body, hbs, fun p hp => (hprop p hp).1⟩,
    by simp [tokenizeSpans, tokenizeFuel]⟩
  intro p hp hne
  rw [hbs] at hp
  rcases List.mem_append.mp hp with h1 | h2
  · exact (hprop p h1).2
  · simp at h2
    subst h2
    simp at hne

/-- C3 witness: the theorem applied to the concrete input `"a,"`, its
membership and non-EOF hypotheses discharged by evaluation. -/
theorem spanCompleteness_witness :
    ((tokenizeSpans "a,".data).map Prod.snd).flatten = "a,".data ∧
    ([','] : List Char) ≠ [] :=
  ⟨(spanCompleteness "a,".data).1,
   (spanCompleteness "a,".data).2.1 (Token.delim ',', [',']) (by decide) (by decide)⟩

/-- C4 (corrected): tokenization is total — for every input the token stream
is produced and ends in the single EOF token; malformed constructs are
returned as well-defined token kinds: a string broken by a newline yields
the bad-string variant (universally, and on the spec's concrete example)
and invalid urls yield the bad-url variant.  The claim's further assertion
that an *unterminated* string also yields bad-string is false: a string
unterminated at end of input yields a well-formed string token (final
conjunct here; refuted by `tokenizerTotal_counterexample`). -/
theorem tokenizerTotal :
    (∀ l : List Char, ∃ body, tokenize l = body ++ [Token.eof] ∧
      ∀ t ∈ body, t ≠ Token.eof) ∧
    (∀ pre post : List Char, ∀ n : Char, isNewline n = true →
      (∀ c ∈ pre, c ≠ '"' ∧ isNewline c = false ∧ c ≠ '\\') →
      nextToken ('"' :: (pre ++ n :: post)) = (Token.badString, 1 + pre.length)) ∧
    tokenize "\"unterminated\nnext".data =
      [Token.badString, Token.whitespace ['\n'], Token.ident "next".data, Token.eof] ∧
    tokenize "url(a(b)".data = [Token.badUrl, Token.eof] ∧
    tokenize "url('x\ny)z".data = [Token.badUrl, Token.ident ['z'], Token.eof] ∧
    tokenize "\"abc".data = [Token.quotedString "abc".data, Token.eof] := by
  refine ⟨?_, fun pre post n hnl hpre => nextToken_badString pre post n hnl hpre,
    by decide, by decide, by decide, by decide⟩
  intro l
  obtain ⟨body, hb, hprop⟩ := tokenizeFuel_eof (l.length + 1) l (by omega)
  refine ⟨body.map Prod.fst, ?_, ?_⟩
  · show (tokenizeSpans l).map Prod.fst = _
    rw [show tokenizeSpans l = body ++ [(Token.eof, [])] from hb]
    simp
  · intro t ht
    obtain ⟨p, hp, rfl⟩ := List.mem_map.mp ht
    exact (hprop p hp).1

/-- C4 witness: the universal bad-string clause applied at the concrete
input `"x` followed by a newline. -/
theorem tokenizerTotal_witness :
    nextToken ('"' :: ("x".data ++ '\n' :: [])) = (Token.badString, 1 + "x".data.length) :=
  tokenizerTotal.2.1 "x".data [] '\n' (by decide) (by decide)

/-- C4 counterexample: the original claim asserts that an unterminated
string yields the bad-string variant, but a string unterminated at end of
input tokenizes to a well-formed string token carrying the characters read
so far — no bad-string token appears anywhere in the stream. -/
theorem tokenizerTotal_counterexample :
    tokenize "\"abc".data = [Token.quotedString "abc".data, Token.eof] ∧
    Token.badString ∉ tokenize "\"abc".data := by decide


/-- C1: for every parsing operation invoked through `Parser::try`, if the
operation signals failure the parser's position after the call equals the
position before the call, no matter how far the operation moved the cursor
internally; if it succeeds, the cursor is exactly the one the operation
left. -/
theorem tryRollback {α : Type} (op : ParseOp α) (p : Parser) :
    (∀ e p2, op p = (.error e, p2) →
      (Parser.tryParse op p).2.position = p.position ∧
      (Parser.tryParse op p).1 = .error e) ∧
    (∀ v p2, op p = (.ok v, p2) → Parser.tryParse op p = (.ok v, p2)) := by
  constructor
  · intro e p2 h
    simp [Parser.tryParse, h, Parser.reset, Parser.position]
  · intro v p2 h
    simp [Parser.tryParse, h]

/-- C1 witness: a concrete operation that consumes three characters and then
fails; `tryParse` restores the position. -/
theorem tryRollback_witness :
    (Parser.tryParse (fun p => ((.error () : Except Unit Unit), p.reset (p.pos + 3)))
        ⟨"abc".data, 0⟩).2.position = Parser.position ⟨"abc".data, 0⟩ :=
  ((tryRollback (fun p => ((.error () : Except Unit Unit), p.reset (p.pos + 3)))
    ⟨"abc".data, 0⟩).1 () ⟨"abc".data, 3⟩ rfl).1

/-- C2: a successful `next` consumes exactly the span of the returned token:
the position strictly advances, the input at the old position is exactly the
token's span followed by the input at the new position, and re-invoking
tokenization at the new position yields precisely the remaining token stream
— no part of the consumed value is re-yielded (its span is split off whole,
as witnessed by the head of the span stream at the old position). -/
theorem exactConsumption (p : Parser) (t : Token) (p2 : Parser)
    (h : p.next = .ok (t, p2)) :
    p.position < p2.position ∧
    p.remaining = p.remaining.take (p2.position - p.position) ++ p2.remaining ∧
    tokenize p.remaining = t :: tokenize p2.remaining ∧
    (tokenizeSpans p.remaining).head? =
      some (t, p.remaining.take (p2.position - p.position)) := by
  unfold Parser.next at h
  rcases hrem : p.remaining with _ | ⟨c, rest⟩
  · rw [hrem] at h; simp at h
  · rw [hrem] at h
    simp only [Except.ok.injEq, Prod.mk.injEq] at h
    obtain ⟨ht, hp2⟩ := h
    have hpos : p2.position = p.position + (nextToken (c :: rest)).2 := by
      rw [← hp2]
      rfl
    have hrem2 : p2.remaining = (c :: rest).drop (nextToken (c :: rest)).2 := by
      rw [← hp2]
      show p.input.drop (p.pos + (nextToken (c :: rest)).2) = _
      rw [← List.drop_drop]
      exact congrArg _ hrem
    have hn := nextToken_pos c rest
    refine ⟨by omega, ?_, ?_, ?_⟩
    · rw [hrem2, hpos]
      simp only [Parser.position, Nat.add_sub_cancel_left]
      exact (List.take_append_drop _ _).symm
    · rw [hrem2, ← ht, tokenize_cons]
    · rw [hpos, tokenizeSpans_cons, ← ht]
      simp [Parser.position]

/-- C2 witness: the theorem applied to a concrete parser positioned at
`ab,c`, whose `next` succeeds with the identifier token `ab`. -/
theorem exactConsumption_witness :
    Parser.position ⟨"ab,c".data, 0⟩ < Parser.position ⟨"ab,c".data, 2⟩ ∧
    Parser.remaining ⟨"ab,c".data, 0⟩ =
      (Parser.remaining ⟨"ab,c".data, 0⟩).take
          (Parser.position ⟨"ab,c".data, 2⟩ - Parser.position ⟨"ab,c".data, 0⟩) ++
        Parser.remaining ⟨"ab,c".data, 2⟩ ∧
    tokenize (Parser.remaining ⟨"ab,c".data, 0⟩) =
      Token.ident "ab".data :: tokenize (Parser.remaining ⟨"ab,c".data, 2⟩) ∧
    (tokenizeSpans (Parser.remaining ⟨"ab,c".data, 0⟩)).head? =
      some (Token.ident "ab".data,
        (Parser.remaining ⟨"ab,c".data, 0⟩).take
          (Parser.position ⟨"ab,c".data, 2⟩ - Parser.position ⟨"ab,c".data, 0⟩)) :=
  exactConsumption ⟨"ab,c".data, 0⟩ (Token.ident "ab".data) ⟨"ab,c".data, 2⟩ (by rfl)


/-- C7: numeric fidelity — `1.5e2` is a number token with value 150 and
integer flag false, `42` an integer number of value 42, `3%` a percentage of
value 3, `10px` a dimension of value 10 with unit `px`; and the modelled
decimal-to-double conversion clamps any magnitude beyond the double range to
an infinity instead of failing. -/
theorem numericFidelity :
    (tokenize "1.5e2".data = [Token.number false ⟨1500, 1⟩, Token.eof] ∧
      NumVal.toRat ⟨1500, 1⟩ = 150) ∧
    (tokenize "42".data = [Token.number true ⟨42, 0⟩, Token.eof] ∧
      NumVal.toRat ⟨42, 0⟩ = 42) ∧
    (tokenize "3%".data = [Token.percentage true ⟨3, 0⟩, Token.eof] ∧
      NumVal.toRat ⟨3, 0⟩ = 3) ∧
    (tokenize "10px".data = [Token.dimension true ⟨10, 0⟩ ['p', 'x'], Token.eof] ∧
      NumVal.toRat ⟨10, 0⟩ = 10) ∧
    (∀ q : ℚ, doubleMax < |q| → (doubleClamp q).isInf = true) := by
  refine ⟨⟨by decide, by norm_num [NumVal.toRat]⟩, ⟨by decide, by norm_num [NumVal.toRat]⟩,
    ⟨by decide, by norm_num [NumVal.toRat]⟩, ⟨by decide, by norm_num [NumVal.toRat]⟩, ?_⟩
  intro q hq
  have hpos : (0 : ℚ) < doubleMax := by
    rw [doubleMax]
    positivity
  rcases lt_abs.mp hq with h | h
  · simp [doubleClamp, h, DoubleVal.isInf]
  · have h2 : q < -doubleMax := by linarith
    have h3 : ¬doubleMax < q := by linarith
    simp [doubleClamp, h2, h3, DoubleVal.isInf]

/-- C7 witness: the clamp clause applied to the out-of-range value
`10^400`. -/
theorem numericFidelity_witness : (doubleClamp ((10 : ℚ) ^ 400)).isInf = true :=
  numericFidelity.2.2.2.2 ((10 : ℚ) ^ 400)
    (by rw [doubleMax, abs_of_pos (by positivity)]; norm_num)


/-- C6: the recovery scenario — parsing the declaration list
`color: ; weight: bold; @bogus 1 2 3; margin: 1px` with callbacks that
reject an empty value and every at-rule yields exactly the two successful
declarations `weight: bold` and `margin: 1px`; the malformed `color:` and
the unknown `@bogus` rule are silently discarded, scanning resumes after
each, and the list parse itself never fails. -/
theorem declRecovery :
    declList sampleDeclCallbacks
        (tokenize "color: ; weight: bold; @bogus 1 2 3; margin: 1px".data) =
      [("weight".data, [Token.ident "bold".data]),
       ("margin".data, [Token.dimension true ⟨1, 0⟩ "px".data])] := by
  decide

/-- C10: the expansion of `match_ignore_ascii_case!` evaluates its scrutinee
expression exactly once (the result state is the state after a single
evaluation), selects by comparing the scrutinee's value against the case
strings in source order under ASCII-case-insensitive equality — the first
(earliest listed) matching case wins, as characterised by `List.find?` — and
falls back when no case matches; ASCII-case-insensitive equality is equality
of ASCII-lowercased strings. -/
theorem matchIgnoreAsciiCaseSpec {α : Type} :
    (∀ (scrutinee : Nat → List Char × Nat) (cases : List (List Char × α))
        (fallback : α) (state : Nat),
      matchIgnoreAsciiCase scrutinee cases fallback state =
        (matchCases (scrutinee state).1 fallback cases, (scrutinee state).2)) ∧
    (∀ (v : List Char) (fallback : α) (cases : List (List Char × α)),
      matchCases v fallback cases =
        ((cases.find? (fun p => eqIgnoreAsciiCase v p.1)).map Prod.snd).getD fallback) ∧
    (∀ a b : List Char,
      eqIgnoreAsciiCase a b = (a.map toAsciiLower == b.map toAsciiLower)) := by
  refine ⟨fun scrutinee cases fallback state => rfl, ?_, ?_⟩
  · intro v fallback cases
    induction cases with
    | nil => rfl
    | cons p rest ih =>
      obtain ⟨s, r⟩ := p
      by_cases h : eqIgnoreAsciiCase v s = true
      · simp [matchCases, h, List.find?]
      · simp only [Bool.not_eq_true] at h
        simp [matchCases, h, List.find?, ih]
  · intro a b
    induction a generalizing b with
    | nil => cases b <;> simp [eqIgnoreAsciiCase]
    | cons c as ih =>
      cases b with
      | nil => simp [eqIgnoreAsciiCase]
      | cons d bs => simp [eqIgnoreAsciiCase, ih]


theorem takeHex_spec (ds : List Char) (a : Nat) (acc : Nat) (rest : List Char)
    (hlen : ds.length ≤ a) (hds : ∀ c ∈ ds, isHexDigit c = true)
    (hstop : (match rest with | c :: _ => isHexDigit c = false | [] => True) ∨ ds.length = a) :
    takeHex a acc (ds ++ rest) = (ds.length, hexValOf acc ds) := by
  induction ds generalizing a acc with
  | nil =>
    cases a with
    | zero => simp [takeHex, hexValOf]
    | succ a =>
      rcases hstop with hstop | hstop
      · cases rest with
        | nil => simp [takeHex, hexValOf]
        | cons c r => simp [takeHex, hstop, hexValOf]
      · simp at hstop
  | cons d ds ih =>
    cases a with
    | zero => simp at hlen
    | succ a =>
      have hd : isHexDigit d = true := hds d (by simp)
      have hrec := ih a (acc * 16 + hexDigitVal d) (by simp at hlen; omega)
        (fun c hc => hds c (by simp [hc]))
        (by rcases hstop with h | h
            · exact Or.inl h
            · right; simp at h; omega)
      simp [takeHex, hd, hrec, hexValOf]

theorem isHexDigit_of_newline (c : Char) (h : isNewline c = true) : isHexDigit c = false := by
  have hc := h
  simp only [isNewline, Bool.or_eq_true, beq_iff_eq] at hc
  rcases hc with (rfl | rfl) | rfl <;> decide

/-- C8: escape handling in identifier and string context — a backslash
followed by 1–6 hex digits (plus optionally one whitespace code point)
denotes the code point with that hex value, where a value of zero, a
surrogate, or a value above the maximum code point is substituted by U+FFFD
and any other value denotes its own code point; a backslash followed by any
other non-newline code point denotes that code point literally; a backslash
at end of input denotes U+FFFD (identifier context), as does a backslash
followed by a newline, while inside a string a backslash followed by a
newline terminates the string as malformed. -/
theorem escapeHandling :
    (∀ ds rest : List Char, ds ≠ [] → ds.length ≤ 6 →
      (∀ c ∈ ds, isHexDigit c = true) →
      ((match rest with | c :: _ => isHexDigit c = false | [] => True) ∨ ds.length = 6) →
      consumeEscape (ds ++ rest) =
        (ds.length + (match rest with
          | c :: _ => if isWhitespace c then 1 else 0
          | [] => 0), escapeChar (hexValOf 0 ds))) ∧
    (∀ v : Nat, (v = 0 ∨ (0xD800 ≤ v ∧ v ≤ 0xDFFF) ∨ 0x10FFFF < v) →
      escapeChar v = '�') ∧
    (∀ v : Nat, v ≠ 0 → ¬(0xD800 ≤ v ∧ v ≤ 0xDFFF) → ¬0x10FFFF < v →
      escapeChar v = Char.ofNat v) ∧
    (∀ (c : Char) (rest : List Char), isHexDigit c = false → isNewline c = false →
      consumeEscape (c :: rest) = (1, c)) ∧
    consumeEscape [] = (0, '�') ∧
    (∀ (c : Char) (rest : List Char), isNewline c = true →
      consumeEscape (c :: rest) = (0, '�')) ∧
    (∀ (f : Nat) (q c : Char) (rest : List Char), isNewline c = true → q ≠ '\\' →
      consumeStringBody (f + 1) q ('\\' :: c :: rest) = (1, [], true)) := by
  refine ⟨?_, ?_, ?_, ?_, rfl, ?_, ?_⟩
  · intro ds rest hne h6 hds hstop
    have hth := takeHex_spec ds 6 0 rest h6 hds hstop
    cases ds with
    | nil => exact absurd rfl hne
    | cons d ds =>
      have hd : isHexDigit d = true := hds d (by simp)
      have hdrop : ((d :: ds) ++ rest).drop (d :: ds).length = rest := List.drop_left _ _
      rw [List.cons_append] at hth hdrop ⊢
      simp only [consumeEscape, hd, if_true, hth, hdrop]
  · intro v hv
    unfold escapeChar
    rcases hv with rfl | hv | hv
    · simp
    · simp [hv.1, hv.2]
    · simp [hv, Nat.le_of_lt]
  · intro v h0 hsur hmax
    unfold escapeChar
    split
    · next hcond =>
        simp only [Bool.or_eq_true, decide_eq_true_eq, Bool.and_eq_true] at hcond
        rcases hcond with (h | h) | h
        · exact absurd h h0
        · exact absurd h hsur
        · exact absurd h hmax
    · rfl
  · intro c rest h1 h2
    simp [consumeEscape, h1, h2]
  · intro c rest h1
    simp [consumeEscape, isHexDigit_of_newline c h1, h1]
  · intro f q c rest h1 h2
    have hq : ('\\' == q) = false := by
      simp only [beq_eq_false_iff_ne]
      exact fun he => h2 he.symm
    simp [consumeStringBody, hq, h1, (by decide : isNewline '\\' = false)]

/-- C8 witness: the hex clause applied to the escape `41` followed by a
space and `x`, denoting `A` and consuming the digits plus one whitespace. -/
theorem escapeHandling_witness :
    consumeEscape (['4', '1'] ++ [' ', 'x']) =
      (['4', '1'].length + 1, escapeChar (hexValOf 0 ['4', '1'])) := by
  have h := escapeHandling.1 ['4', '1'] [' ', 'x'] (by decide) (by decide) (by decide)
    (Or.inl (by decide))
  simpa using h


theorem stackAfter_nil (stack : List Token) : stackAfter stack [] = stack := rfl

theorem stackAfter_cons (stack : List Token) (t : Token) (l : List Token) :
    stackAfter stack (t :: l) = stackAfter (stackStep stack t) l := rfl

theorem consumeUntil_step (d : Delimiters) (t : Token) (ts : List Token) (stack : List Token)
    (hne : consumeUntil d stack (t :: ts) = 1 + consumeUntil d (stackStep stack t) ts)
    (hzero : stack = [] → matchesDelim d t = false ∧ t ≠ Token.eof)
    (IH : consumeUntil d (stackStep stack t) ts ≤ ts.length ∧
      (∀ i u, i < consumeUntil d (stackStep stack t) ts → ts.get? i = some u →
        stackAfter (stackStep stack t) (ts.take i) = [] →
        matchesDelim d u = false ∧ u ≠ Token.eof) ∧
      (∀ u, ts.get? (consumeUntil d (stackStep stack t) ts) = some u →
        u = Token.eof ∨
          (stackAfter (stackStep stack t) (ts.take (consumeUntil d (stackStep stack t) ts)) = [] ∧
            matchesDelim d u = true))) :
    consumeUntil d stack (t :: ts) ≤ (t :: ts).length ∧
    (∀ i u, i < consumeUntil d stack (t :: ts) → (t :: ts).get? i = some u →
      stackAfter stack ((t :: ts).take i) = [] →
      matchesDelim d u = false ∧ u ≠ Token.eof) ∧
    (∀ u, (t :: ts).get? (consumeUntil d stack (t :: ts)) = some u →
      u = Token.eof ∨
        (stackAfter stack ((t :: ts).take (consumeUntil d stack (t :: ts))) = [] ∧
          matchesDelim d u = true)) := by
  obtain ⟨ih1, ih2, ih3⟩ := IH
  refine ⟨by simp [hne]; omega, ?_, ?_⟩
  · intro i u hi hget hstack
    cases i with
    | zero =>
      simp only [List.get?_cons_zero, Option.some.injEq] at hget
      subst hget
      simp only [List.take_zero, stackAfter_nil] at hstack
      exact hzero hstack
    | succ j =>
      rw [hne] at hi
      simp only [List.get?_cons_succ] at hget
      simp only [List.take_succ_cons, stackAfter_cons] at hstack
      exact ih2 j u (by omega) hget hstack
  · intro u hget
    rw [hne, Nat.add_comm] at hget
    simp only [List.get?_cons_succ] at hget
    rcases ih3 u hget with h | ⟨h1, h2⟩
    · exact Or.inl h
    · refine Or.inr ⟨?_, h2⟩
      rw [hne, Nat.add_comm]
      simpa [List.take_succ_cons, stackAfter_cons] using h1

theorem consumeUntil_spec (d : Delimiters) (ts : List Token) : ∀ stack : List Token,
    consumeUntil d stack ts ≤ ts.length ∧
    (∀ i u, i < consumeUntil d stack ts → ts.get? i = some u →
      stackAfter stack (ts.take i) = [] →
      matchesDelim d u = false ∧ u ≠ Token.eof) ∧
    (∀ u, ts.get? (consumeUntil d stack ts) = some u →
      u = Token.eof ∨
        (stackAfter stack (ts.take (consumeUntil d stack ts)) = [] ∧
          matchesDelim d u = true)) := by
  induction ts with
  | nil =>
    intro stack
    have hn : consumeUntil d stack [] = 0 := by cases stack <;> simp [consumeUntil]
    refine ⟨by simp [hn], ?_, ?_⟩
    · intro i u hi hget
      simp [hn] at hi
    · intro u hget
      simp at hget
  | cons t ts ih =>
    intro stack
    by_cases he : t = Token.eof
    · subst he
      have hn : consumeUntil d stack (Token.eof :: ts) = 0 := by
        cases stack <;> simp [consumeUntil]
      refine ⟨by simp [hn], ?_, ?_⟩
      · intro i u hi
        simp [hn] at hi
      · intro u hget
        rw [hn] at hget
        simp only [List.get?_cons_zero, Option.some.injEq] at hget
        exact Or.inl hget.symm
    · have heb : (t == Token.eof) = false := by simp [he]
      cases stack with
      | nil =>
        by_cases hm : matchesDelim d t = true
        · have hn : consumeUntil d [] (t :: ts) = 0 := by
            simp [consumeUntil, heb, hm]
          refine ⟨by simp [hn], ?_, ?_⟩
          · intro i u hi
            simp [hn] at hi
          · intro u hget
            rw [hn] at hget
            simp only [List.get?_cons_zero, Option.some.injEq] at hget
            subst hget
            rw [hn]
            exact Or.inr ⟨rfl, hm⟩
        · have hmb : matchesDelim d t = false := by simp at hm; exact hm
          cases hc : closerFor t with
          | none =>
            refine consumeUntil_step d t ts [] ?_ (fun _ => ⟨hmb, he⟩) ?_
            · simp [consumeUntil, heb, hmb, hc, stackStep]
            · have hstep : stackStep [] t = [] := by simp [stackStep, hc]
              rw [hstep]
              exact ih []
          | some c =>
            refine consumeUntil_step d t ts [] ?_ (fun _ => ⟨hmb, he⟩) ?_
            · simp [consumeUntil, heb, hmb, hc, stackStep]
            · have hstep : stackStep [] t = [c] := by simp [stackStep, hc]
              rw [hstep]
              exact ih [c]
      | cons c cs =>
        by_cases htc : (t == c) = true
        · refine consumeUntil_step d t ts (c :: cs) ?_ (by intro h; cases h) ?_
          · simp [consumeUntil, heb, htc, stackStep]
          · have hstep : stackStep (c :: cs) t = cs := by simp [stackStep, htc]
            rw [hstep]
            exact ih cs
        · have htcb : (t == c) = false := by simp at htc ⊢; exact htc
          cases hc : closerFor t with
          | none =>
            refine consumeUntil_step d t ts (c :: cs) ?_ (by intro h; cases h) ?_
            · simp [consumeUntil, heb, htcb, hc, stackStep]
            · have hstep : stackStep (c :: cs) t = c :: cs := by simp [stackStep, htcb, hc]
              rw [hstep]
              exact ih (c :: cs)
          | some c2 =>
            refine consumeUntil_step d t ts (c :: cs) ?_ (by intro h; cases h) ?_
            · simp [consumeUntil, heb, htcb, hc, stackStep]
            · have hstep : stackStep (c :: cs) t = c2 :: c :: cs := by simp [stackStep, htcb, hc]
              rw [hstep]
              exact ih (c2 :: c :: cs)

/-- C5: delimiter-scoped consumption stops before a token matching the
active delimiter set only at nesting depth zero relative to the scope where
consumption started (every consumed token that sits at depth zero is a
non-delimiter, so delimiter occurrences inside nested blocks are skipped as
part of consuming the block whole), and otherwise stops only at end of
input: the stopping point, when inside the stream, is either the EOF token
or a depth-zero token matching the set. -/
theorem delimiterScoping (d : Delimiters) (ts : List Token) :
    consumeUntil d [] ts ≤ ts.length ∧
    (∀ i u, i < consumeUntil d [] ts → ts.get? i = some u →
      stackAfter [] (ts.take i) = [] →
      matchesDelim d u = false ∧ u ≠ Token.eof) ∧
    (∀ u, ts.get? (consumeUntil d [] ts) = some u →
      u = Token.eof ∨
        (stackAfter [] (ts.take (consumeUntil d [] ts)) = [] ∧
          matchesDelim d u = true)) :=
  consumeUntil_spec d ts []

/-- C5 witness: consuming up to a top-level comma over `a (b, c), d` — whose
nested parenthesised comma must be skipped — the theorem applied at the
consumed depth-zero token `a` and at the stopping token, the top-level
comma. -/
theorem delimiterScoping_witness :
    (matchesDelim Delimiters.commaOnly (Token.ident ['a']) = false ∧
      Token.ident ['a'] ≠ Token.eof) ∧
    (Token.delim ',' = Token.eof ∨
      (stackAfter [] ((tokenize "a (b, c), d".data).take
          (consumeUntil Delimiters.commaOnly [] (tokenize "a (b, c), d".data))) = [] ∧
        matchesDelim Delimiters.commaOnly (Token.delim ',') = true)) :=
  ⟨(delimiterScoping Delimiters.commaOnly (tokenize "a (b, c), d".data)).2.1 0
      (Token.ident ['a']) (by decide) (by decide) (by decide),
   (delimiterScoping Delimiters.commaOnly (tokenize "a (b, c), d".data)).2.2
      (Token.delim ',') (by decide)⟩


theorem hexDigitChar_spec : ∀ m : Nat, m < 16 →
    isHexDigit (hexDigitChar m) = true ∧ hexDigitVal (hexDigitChar m) = m ∧
    isNewline (hexDigitChar m) = false ∧ isWhitespace (hexDigitChar m) = false ∧
    isNameChar (hexDigitChar m) = true ∧ isDigit (hexDigitChar m) = (m < 10) := by
  decide

theorem hex6_mem (n : Nat) : ∀ c ∈ hex6 n,
    isHexDigit c = true ∧ isNewline c = false ∧ isWhitespace c = false := by
  intro c hc
  simp only [hex6, List.mem_cons, List.not_mem_nil, or_false] at hc
  have hm : ∀ x : Nat, x % 16 < 16 := fun x => Nat.mod_lt _ (by omega)
  rcases hc with rfl | rfl | rfl | rfl | rfl | rfl <;>
    exact ⟨(hexDigitChar_spec _ (hm _)).1, (hexDigitChar_spec _ (hm _)).2.2.1,
      (hexDigitChar_spec _ (hm _)).2.2.2.1⟩

theorem hexValOf_hex6 (n : Nat) (h : n < 16 ^ 6) : hexValOf 0 (hex6 n) = n := by
  have hm : ∀ x : Nat, x % 16 < 16 := fun x => Nat.mod_lt _ (by omega)
  simp only [hex6, hexValOf, (hexDigitChar_spec _ (hm _)).2.1]
  omega

theorem escapeChar_toNat (c : Char) (h : c ≠ '\x00') : escapeChar c.toNat = c := by
  have hval : c.toNat.isValidChar := c.valid
  have h0 : c.toNat ≠ 0 := fun he => h (by rw [← Char.ofNat_toNat c, he])
  unfold Nat.isValidChar at hval
  unfold escapeChar
  rw [if_neg]
  · exact Char.ofNat_toNat c
  · simp only [Bool.or_eq_true, decide_eq_true_eq, Bool.and_eq_true, not_or]
    omega


theorem toNat_lt_hex6 (c : Char) : c.toNat < 16 ^ 6 := by
  have hval : c.toNat.isValidChar := c.valid
  unfold Nat.isValidChar at hval
  omega

theorem escBody_cons (c : Char) :
    ∃ d t, escBody c = d :: t ∧ isNewline d = false ∧ isWhitespace d = false := by
  by_cases h : c = '\x00'
  · subst h
    exact ⟨'\x00', [], by simp [escBody], by decide, by decide⟩
  · refine ⟨hexDigitChar (c.toNat / 16 ^ 5 % 16),
      [hexDigitChar (c.toNat / 16 ^ 4 % 16), hexDigitChar (c.toNat / 16 ^ 3 % 16),
       hexDigitChar (c.toNat / 16 ^ 2 % 16), hexDigitChar (c.toNat / 16 % 16),
       hexDigitChar (c.toNat % 16)], by simp [escBody, h, hex6], ?_, ?_⟩
    · exact (hexDigitChar_spec _ (Nat.mod_lt _ (by omega))).2.2.1
    · exact (hexDigitChar_spec _ (Nat.mod_lt _ (by omega))).2.2.2.1

theorem consumeEscape_escBody (c : Char) (rest : List Char)
    (hrest : match rest with | d :: _ => isWhitespace d = false | [] => True) :
    consumeEscape (escBody c ++ rest) = ((escBody c).length, c) := by
  by_cases h : c = '\x00'
  · subst h
    simp only [escBody, if_pos rfl, List.cons_append, List.nil_append]
    simp [consumeEscape, (by decide : isHexDigit '\x00' = false),
      (by decide : isNewline '\x00' = false)]
  · have hlt := toNat_lt_hex6 c
    have h1 : takeHex 6 0 (hex6 c.toNat ++ rest) = (6, c.toNat) := by
      have hth := takeHex_spec (hex6 c.toNat) 6 0 rest (by simp [hex6])
        (fun d hd => (hex6_mem _ d hd).1) (Or.inr (by simp [hex6]))
      rw [hth, hexValOf_hex6 _ hlt]
      simp [hex6]
    have hdrop : (hex6 c.toNat ++ rest).drop 6 = rest := by
      rw [show (6 : Nat) = (hex6 c.toNat).length by simp [hex6]]
      exact List.drop_left _ _
    have hlen : (escBody c).length = 6 := by simp [escBody, h, hex6]
    simp only [escBody, if_neg h] at hlen ⊢
    have hhead : isHexDigit (hexDigitChar (c.toNat / 16 ^ 5 % 16)) = true :=
      (hexDigitChar_spec _ (Nat.mod_lt _ (by omega))).1
    simp only [hex6, List.cons_append] at h1 hdrop ⊢
    simp only [consumeEscape, hhead, if_true, h1, hdrop]
    have hesc := escapeChar_toNat c h
    cases rest with
    | nil => simp [hesc]
    | cons d r =>
      have : isWhitespace d = false := hrest
      simp [this, hesc]


theorem serializeName_cons (c : Char) (v : List Char) :
    serializeName (c :: v) = (if isNameChar c then [c] else escChar c) ++ serializeName v := by
  simp [serializeName]

theorem isWhitespace_cases (c : Char) (h : isWhitespace c = true) :
    c = ' ' ∨ c = '\t' ∨ c = '\n' ∨ c = '\r' ∨ c = '\x0c' := by
  simp only [isWhitespace, isNewline, Bool.or_eq_true, beq_iff_eq] at h
  tauto

theorem isNameChar_not_ws (c : Char) (h : isNameChar c = true) : isWhitespace c = false := by
  by_cases hw : isWhitespace c = true
  · rcases isWhitespace_cases c hw with rfl | rfl | rfl | rfl | rfl <;> exact absurd h (by decide)
  · simpa using hw

theorem serializeName_suffix_head (v suffix : List Char)
    (hsuf : match suffix with | d :: _ => isWhitespace d = false | [] => True) :
    match serializeName v ++ suffix with
    | d :: _ => isWhitespace d = false
    | [] => True := by
  cases v with
  | nil => simpa [serializeName] using hsuf
  | cons c v =>
    rw [serializeName_cons]
    by_cases hc : isNameChar c = true
    · simpa [hc] using isNameChar_not_ws c hc
    · simp only [hc, Bool.false_eq_true, if_false, escChar, List.cons_append]
      show isWhitespace '\\' = false
      decide

theorem consumeName_serializeName (v : List Char) : ∀ (f : Nat) (suffix : List Char),
    v.length ≤ f →
    (match suffix with
     | d :: _ => isNameChar d = false ∧ d ≠ '\\' ∧ isWhitespace d = false
     | [] => True) →
    consumeName f (serializeName v ++ suffix) = ((serializeName v).length, v) := by
  induction v with
  | nil =>
    intro f suffix hf hsuf
    cases f with
    | zero => simp [serializeName, consumeName]
    | succ f =>
      cases suffix with
      | nil => simp [serializeName, consumeName]
      | cons d r =>
        obtain ⟨h1, h2, _⟩ := hsuf
        have h2b : (d == '\\') = false := by simp [h2]
        simp [serializeName, consumeName, h1, h2b]
  | cons c v ih =>
    intro f suffix hf hsuf
    cases f with
    | zero => simp at hf
    | succ f =>
      rw [serializeName_cons]
      by_cases hc : isNameChar c = true
      · simp only [if_pos hc, List.cons_append, List.append_assoc, List.nil_append]
        simp only [consumeName, hc, if_true]
        rw [ih f suffix (by simp at hf; omega) hsuf]
        simp [serializeName_cons, hc]
      · simp only [if_neg hc, escChar, List.cons_append, List.append_assoc]
        have hwsc : match serializeName v ++ suffix with
            | d :: _ => isWhitespace d = false
            | [] => True := by
          refine serializeName_suffix_head v suffix ?_
          cases suffix with
          | nil => trivial
          | cons d r => exact hsuf.2.2
        have hesc := consumeEscape_escBody c (serializeName v ++ suffix) hwsc
        have hdrop : (escBody c ++ (serializeName v ++ suffix)).drop (escBody c).length =
            serializeName v ++ suffix := List.drop_left _ _
        simp only [consumeName, (by decide : isNameChar '\\' = false), Bool.false_eq_true,
          if_false, (by decide : ('\\' == '\\') = true), if_true, hesc, hdrop]
        rw [ih f suffix (by simp at hf; omega) hsuf]
        simp [serializeName_cons, hc, escChar]
        omega


theorem consumeName_serializeIdentText (v : List Char) (f : Nat) (suffix : List Char)
    (hf : v.length < f)
    (hsuf : match suffix with
      | d :: _ => isNameChar d = false ∧ d ≠ '\\' ∧ isWhitespace d = false
      | [] => True) :
    consumeName f (serializeIdentText v ++ suffix) = ((serializeIdentText v).length, v) := by
  cases v with
  | nil =>
    cases f with
    | zero => omega
    | succ f =>
      cases suffix with
      | nil => simp [serializeIdentText, consumeName]
      | cons d r =>
        obtain ⟨h1, h2, _⟩ := hsuf
        have h2b : (d == '\\') = false := by simp [h2]
        simp [serializeIdentText, consumeName, h1, h2b]
  | cons c v =>
    cases f with
    | zero => simp at hf
    | succ f =>
      have hwsc : match serializeName v ++ suffix with
          | d :: _ => isWhitespace d = false
          | [] => True := by
        refine serializeName_suffix_head v suffix ?_
        cases suffix with
        | nil => trivial
        | cons d r => exact hsuf.2.2
      have hesc := consumeEscape_escBody c (serializeName v ++ suffix) hwsc
      have hdrop : (escBody c ++ (serializeName v ++ suffix)).drop (escBody c).length =
          serializeName v ++ suffix := List.drop_left _ _
      simp only [serializeIdentText, escChar, List.cons_append, List.append_assoc]
      simp only [consumeName, (by decide : isNameChar '\\' = false), Bool.false_eq_true,
        if_false, (by decide : ('\\' == '\\') = true), if_true, hesc, hdrop]
      rw [consumeName_serializeName v f suffix (by simp at hf; omega) hsuf]
      simp [escChar]
      omega


theorem serializeString_suffix_head (v suffix : List Char)
    (hsuf : match suffix with | d :: _ => isWhitespace d = false | [] => True) :
    match (v.map serializeStringChar).flatten ++ suffix with
    | d :: _ => isWhitespace d = false
    | [] => True := by
  cases v with
  | nil => simpa using hsuf
  | cons c v =>
    simp only [List.map_cons, List.flatten_cons, List.append_assoc]
    by_cases hc : (c = '"' || c = '\\' || isWhitespace c) = true
    · have hhead : serializeStringChar c = '\\' :: escBody c := by
        simp [serializeStringChar, hc, escChar]
      rw [hhead]
      show isWhitespace '\\' = false
      decide
    · have hhead : serializeStringChar c = [c] := by simp [serializeStringChar, hc]
      rw [hhead]
      show isWhitespace c = false
      by_cases hw : isWhitespace c = true
      · exact absurd (by simp [hw]) hc
      · simpa using hw

theorem consumeStringBody_serialize (v : List Char) : ∀ (f : Nat) (suffix : List Char),
    v.length < f →
    consumeStringBody f '"' ((v.map serializeStringChar).flatten ++ '"' :: suffix) =
      ((v.map serializeStringChar).flatten.length + 1, v, false) := by
  induction v with
  | nil =>
    intro f suffix hf
    cases f with
    | zero => omega
    | succ f => simp [consumeStringBody]
  | cons c v ih =>
    intro f suffix hf
    cases f with
    | zero => simp at hf
    | succ f =>
      simp only [List.map_cons, List.flatten_cons, List.append_assoc]
      by_cases hc : (c = '"' || c = '\\' || isWhitespace c) = true
      · have hhead : serializeStringChar c = '\\' :: escBody c := by
          simp [serializeStringChar, hc, escChar]
        rw [hhead]
        obtain ⟨d, t, hdt, hdn, _⟩ := escBody_cons c
        have hws : match (v.map serializeStringChar).flatten ++ '"' :: suffix with
            | d :: _ => isWhitespace d = false
            | [] => True :=
          serializeString_suffix_head v ('"' :: suffix) (by show isWhitespace '"' = false; decide)
        have hesc := consumeEscape_escBody c ((v.map serializeStringChar).flatten ++ '"' :: suffix) hws
        have hdrop := List.drop_left (escBody c) ((v.map serializeStringChar).flatten ++ '"' :: suffix)
        have hshape : escBody c ++ ((v.map serializeStringChar).flatten ++ '"' :: suffix) =
            d :: (t ++ ((v.map serializeStringChar).flatten ++ '"' :: suffix)) := by
          rw [hdt]
          rfl
        rw [hshape] at hesc hdrop
        simp only [List.cons_append, consumeStringBody,
          (by decide : ('\\' == '"') = false), Bool.false_eq_true, if_false,
          (by decide : isNewline '\\' = false), (by decide : ('\\' == '\\') = true), if_true,
          List.append_eq, hshape, hdn, hesc, hdrop]
        rw [ih f suffix (by simp at hf; omega)]
        have hlenb : (escBody c).length = t.length + 1 := by rw [hdt]; simp
        simp only [Prod.mk.injEq, List.length_append, List.length_cons]
        exact ⟨by omega, trivial⟩
      · have hhead : serializeStringChar c = [c] := by simp [serializeStringChar, hc]
        rw [hhead]
        have hwb : isWhitespace c = false := by
          by_cases hw : isWhitespace c = true
          · exact absurd (by simp [hw]) hc
          · simpa using hw
        have hq : (c == '"') = false := by
          by_cases h : c = '"'
          · exact absurd (by simp [h]) hc
          · simp [h]
        have hb : (c == '\\') = false := by
          by_cases h : c = '\\'
          · exact absurd (by simp [h]) hc
          · simp [h]
        have hnl : isNewline c = false := by
          by_cases hn : isNewline c = true
          · exfalso
            have : isWhitespace c = true := by simp [isWhitespace, hn]
            simp [this] at hwb
          · simpa using hn
        simp only [List.cons_append, List.nil_append, consumeStringBody, hq,
          Bool.false_eq_true, if_false, hnl, hb, List.append_eq]
        rw [ih f suffix (by simp at hf; omega)]
        simp only [Prod.mk.injEq, List.length_append, List.length_cons, List.length_nil]
        exact ⟨by omega, trivial⟩


theorem digitChar_spec : ∀ m : Nat, m < 10 →
    isDigit (digitChar m) = true ∧ digitVal (digitChar m) = m := by
  decide

theorem natOfDigits_nil (acc : Nat) : natOfDigits acc [] = acc := rfl

theorem natOfDigits_cons (acc : Nat) (c : Char) (rest : List Char) :
    natOfDigits acc (c :: rest) = natOfDigits (acc * 10 + digitVal c) rest := rfl

theorem natOfDigits_append (l1 l2 : List Char) : ∀ acc : Nat,
    natOfDigits acc (l1 ++ l2) = natOfDigits (natOfDigits acc l1) l2 := by
  induction l1 with
  | nil => intro acc; rfl
  | cons c l1 ih =>
    intro acc
    rw [List.cons_append]
    show natOfDigits (acc * 10 + digitVal c) (l1 ++ l2) = _
    rw [ih]
    rfl

theorem natDigits_spec (f : Nat) : ∀ n : Nat, n < f →
    (∀ c ∈ natDigits f n, isDigit c = true) ∧ natDigits f n ≠ [] ∧
    ∀ acc, natOfDigits acc (natDigits f n) = acc * 10 ^ (natDigits f n).length + n := by
  induction f with
  | zero => omega
  | succ f ih =>
    intro n hn
    by_cases h10 : n < 10
    · refine ⟨?_, ?_, ?_⟩
      · intro c hc
        simp only [natDigits, h10, if_true, List.mem_singleton] at hc
        subst hc
        exact (digitChar_spec n h10).1
      · simp [natDigits, h10]
      · intro acc
        rw [show natDigits (f + 1) n = [digitChar n] from by simp [natDigits, h10]]
        rw [natOfDigits_cons, natOfDigits_nil, (digitChar_spec n h10).2]
        simp [pow_one]
    · have hd : n / 10 < f := by omega
      obtain ⟨ha, hb, hv⟩ := ih (n / 10) hd
      refine ⟨?_, ?_, ?_⟩
      · intro c hc
        simp only [natDigits, h10, if_false, List.mem_append, List.mem_singleton] at hc
        rcases hc with hc | rfl
        · exact ha c hc
        · exact (digitChar_spec _ (Nat.mod_lt _ (by omega))).1
      · simp [natDigits, h10]
      · intro acc
        simp only [natDigits, h10, if_false]
        rw [natOfDigits_append, hv acc]
        rw [natOfDigits_cons, natOfDigits_nil,
          (digitChar_spec _ (Nat.mod_lt _ (by omega) : n % 10 < 10)).2]
        simp only [List.length_append, List.length_cons, List.length_nil]
        rw [pow_succ]
        have h1 : n / 10 * 10 + n % 10 = n := by omega
        ring_nf
        omega

theorem countWhile_append_all (p : Char → Bool) (l1 l2 : List Char)
    (h1 : ∀ c ∈ l1, p c = true)
    (h2 : match l2 with | c :: _ => p c = false | [] => True) :
    countWhile p (l1 ++ l2) = l1.length := by
  induction l1 with
  | nil =>
    cases l2 with
    | nil => simp [countWhile]
    | cons c r => simp [countWhile, h2]
  | cons c l1 ih =>
    rw [List.cons_append, countWhile_pos _ _ _ (h1 c (by simp)),
      ih (fun d hd => h1 d (by simp [hd]))]
    simp


theorem natDigits_head_digit (a : Nat) :
    ∃ d t, natDigits (a + 1) a = d :: t ∧ isDigit d = true := by
  obtain ⟨ha, hb, _⟩ := natDigits_spec (a + 1) a (by omega)
  cases h : natDigits (a + 1) a with
  | nil => exact absurd h hb
  | cons d t => exact ⟨d, t, rfl, ha d (by rw [h]; simp)⟩

theorem digits_block (a : Nat) (rest : List Char)
    (hrest : ∀ c t, rest = c :: t → isDigit c = false) :
    countWhile isDigit (natDigits (a + 1) a ++ rest) = (natDigits (a + 1) a).length ∧
    (natDigits (a + 1) a ++ rest).take (natDigits (a + 1) a).length = natDigits (a + 1) a ∧
    (natDigits (a + 1) a ++ rest).drop (natDigits (a + 1) a).length = rest ∧
    natOfDigits 0 (natDigits (a + 1) a) = a := by
  obtain ⟨ha, hb, hv⟩ := natDigits_spec (a + 1) a (by omega)
  refine ⟨countWhile_append_all _ _ _ ha ?_, List.take_left _ _, List.drop_left _ _, ?_⟩
  · cases rest with
    | nil => trivial
    | cons c t => exact hrest c t rfl
  rw [hv 0]
  simp

theorem isDigit_facts (c : Char) (h : isDigit c = true) :
    c ≠ '+' ∧ c ≠ '-' ∧ c ≠ '.' := by
  refine ⟨?_, ?_, ?_⟩ <;> (rintro rfl; exact absurd h (by decide))

set_option maxHeartbeats 1000000 in
theorem consumeNumeric_int_nonneg (a : Nat) (suffix : List Char)
    (hs1 : numFrac suffix = (false, 0, 0, suffix))
    (hs2 : numExpo suffix = (false, false, 0, 0, suffix))
    (hs3 : ∀ c t, suffix = c :: t → isDigit c = false) :
    consumeNumeric (natDigits (a + 1) a ++ suffix) =
      ((numToken true ⟨(a : Int), 0⟩ suffix).1,
        (natDigits (a + 1) a).length + (numToken true ⟨(a : Int), 0⟩ suffix).2) := by
  obtain ⟨d, t, hdt, hdd⟩ := natDigits_head_digit a
  obtain ⟨hnp, hnm, _⟩ := isDigit_facts d hdd
  obtain ⟨hcw, htake, hdrop, hval⟩ := digits_block a suffix hs3
  have hsign : numSign (natDigits (a + 1) a ++ suffix) = (1, 0, natDigits (a + 1) a ++ suffix) := by
    rw [hdt, List.cons_append]
    exact numSign_other d (t ++ suffix) hnp hnm
  simp only [consumeNumeric, hsign, hcw, htake, hdrop, hs1, hs2, hval, numValue]
  simp only [pow_zero, Nat.mul_one, Nat.add_zero, Bool.not_false, Bool.and_self]
  norm_num

set_option maxHeartbeats 1000000 in
theorem consumeNumeric_int_neg (a : Nat) (suffix : List Char)
    (hs1 : numFrac suffix = (false, 0, 0, suffix))
    (hs2 : numExpo suffix = (false, false, 0, 0, suffix))
    (hs3 : ∀ c t, suffix = c :: t → isDigit c = false) :
    consumeNumeric ('-' :: (natDigits (a + 1) a ++ suffix)) =
      ((numToken true ⟨-(a : Int), 0⟩ suffix).1,
        1 + (natDigits (a + 1) a).length + (numToken true ⟨-(a : Int), 0⟩ suffix).2) := by
  obtain ⟨hcw, htake, hdrop, hval⟩ := digits_block a suffix hs3
  have hsign : numSign ('-' :: (natDigits (a + 1) a ++ suffix)) =
      (-1, 1, natDigits (a + 1) a ++ suffix) := rfl
  simp only [consumeNumeric, hsign, hcw, htake, hdrop, hs1, hs2, hval, numValue]
  simp only [pow_zero, Nat.mul_one, Nat.add_zero, Bool.not_false, Bool.and_self]
  norm_num
  all_goals omega

theorem numFrac_e (x : List Char) : numFrac ('e' :: x) = (false, 0, 0, 'e' :: x) := rfl

set_option maxHeartbeats 1000000 in
theorem numExpo_serialized (s : Nat) (suffix : List Char)
    (hs3 : ∀ c t, suffix = c :: t → isDigit c = false) :
    numExpo ('e' :: '-' :: (natDigits (s + 1) s ++ suffix)) =
      (true, true, 2 + (natDigits (s + 1) s).length, s, suffix) := by
  obtain ⟨sd, st, hsd, hsdd⟩ := natDigits_head_digit s
  obtain ⟨hcw, htake, hdrop, hval⟩ := digits_block s suffix hs3
  rw [hsd, List.cons_append]
  simp only [numExpo, hsdd, (by decide : ('e' == 'e' || 'e' == 'E') = true), Bool.and_self,
    if_true, Bool.true_and]
  all_goals rw [← List.cons_append, ← hsd]
  all_goals simp only [hcw, htake, hdrop, hval]
  all_goals rw [hsd]
  all_goals simp

set_option maxHeartbeats 1000000 in
theorem consumeNumeric_exp_nonneg (a s : Nat) (suffix : List Char)
    (hs1 : numFrac suffix = (false, 0, 0, suffix))
    (hs2 : numExpo suffix = (false, false, 0, 0, suffix))
    (hs3 : ∀ c t, suffix = c :: t → isDigit c = false) :
    consumeNumeric (natDigits (a + 1) a ++ ('e' :: '-' :: (natDigits (s + 1) s ++ suffix))) =
      ((numToken false ⟨(a : Int), s⟩ suffix).1,
        (natDigits (a + 1) a).length + 2 + (natDigits (s + 1) s).length +
          (numToken false ⟨(a : Int), s⟩ suffix).2) := by
  obtain ⟨d, t, hdt, hdd⟩ := natDigits_head_digit a
  obtain ⟨hnp, hnm, _⟩ := isDigit_facts d hdd
  obtain ⟨hcw, htake, hdrop, hval⟩ := digits_block a
    ('e' :: '-' :: (natDigits (s + 1) s ++ suffix)) (by intro c t h; cases h; decide)
  have hsign : numSign (natDigits (a + 1) a ++ ('e' :: '-' :: (natDigits (s + 1) s ++ suffix))) =
      (1, 0, natDigits (a + 1) a ++ ('e' :: '-' :: (natDigits (s + 1) s ++ suffix))) := by
    rw [hdt, List.cons_append]
    exact numSign_other d _ hnp hnm
  have hexpo := numExpo_serialized s suffix hs3
  simp only [consumeNumeric, hsign, hcw, htake, hdrop, hval, numFrac_e, hexpo, numValue]
  simp only [pow_zero, Nat.mul_one, Nat.add_zero, Bool.not_false, Bool.not_true,
    Bool.and_false]
  all_goals norm_num
  all_goals omega

set_option maxHeartbeats 1000000 in
theorem consumeNumeric_exp_neg (a s : Nat) (suffix : List Char)
    (hs1 : numFrac suffix = (false, 0, 0, suffix))
    (hs2 : numExpo suffix = (false, false, 0, 0, suffix))
    (hs3 : ∀ c t, suffix = c :: t → isDigit c = false) :
    consumeNumeric ('-' :: (natDigits (a + 1) a ++ ('e' :: '-' :: (natDigits (s + 1) s ++ suffix)))) =
      ((numToken false ⟨-(a : Int), s⟩ suffix).1,
        1 + (natDigits (a + 1) a).length + 2 + (natDigits (s + 1) s).length +
          (numToken false ⟨-(a : Int), s⟩ suffix).2) := by
  obtain ⟨hcw, htake, hdrop, hval⟩ := digits_block a
    ('e' :: '-' :: (natDigits (s + 1) s ++ suffix)) (by intro c t h; cases h; decide)
  have hsign : numSign ('-' :: (natDigits (a + 1) a ++ ('e' :: '-' :: (natDigits (s + 1) s ++ suffix)))) =
      (-1, 1, natDigits (a + 1) a ++ ('e' :: '-' :: (natDigits (s + 1) s ++ suffix))) := rfl
  have hexpo := numExpo_serialized s suffix hs3
  simp only [consumeNumeric, hsign, hcw, htake, hdrop, hval, numFrac_e, hexpo, numValue]
  simp only [pow_zero, Nat.mul_one, Nat.add_zero, Bool.not_false, Bool.not_true,
    Bool.and_false]
  all_goals norm_num
  all_goals omega


set_option maxHeartbeats 1000000 in
theorem consumeNumeric_serializeNum (flag : Bool) (v : NumVal)
    (hsc : flag = true → v.scale = 0) (suffix : List Char)
    (hs1 : numFrac suffix = (false, 0, 0, suffix))
    (hs2 : numExpo suffix = (false, false, 0, 0, suffix))
    (hs3 : ∀ c t, suffix = c :: t → isDigit c = false) :
    consumeNumeric (serializeNum flag v ++ suffix) =
      ((numToken flag v suffix).1, (serializeNum flag v).length + (numToken flag v suffix).2) := by
  obtain ⟨num, scale⟩ := v
  cases flag with
  | true =>
    have hsc0 : scale = 0 := hsc rfl
    subst hsc0
    by_cases hneg : num < 0
    · have hna : -(num.natAbs : Int) = num := by omega
      have h := consumeNumeric_int_neg num.natAbs suffix hs1 hs2 hs3
      rw [hna] at h
      simp only [serializeNum, intText, if_true, if_pos hneg, List.cons_append,
        List.append_assoc, h, List.length_cons, List.length_append, Prod.mk.injEq]
      all_goals exact ⟨trivial, by omega⟩
    · have hna : (num.natAbs : Int) = num := by omega
      have h := consumeNumeric_int_nonneg num.natAbs suffix hs1 hs2 hs3
      rw [hna] at h
      simp only [serializeNum, intText, if_true, if_neg hneg, List.cons_append,
        List.append_assoc, h, List.length_cons, List.length_append, Prod.mk.injEq]
      all_goals exact ⟨trivial, by omega⟩
  | false =>
    by_cases hneg : num < 0
    · have hna : -(num.natAbs : Int) = num := by omega
      have h := consumeNumeric_exp_neg num.natAbs scale suffix hs1 hs2 hs3
      rw [hna] at h
      simp only [serializeNum, Bool.false_eq_true, if_false, intText, if_pos hneg,
        List.cons_append, List.append_assoc, h, List.length_cons, List.length_append,
        Prod.mk.injEq]
      all_goals exact ⟨trivial, by omega⟩
    · have hna : (num.natAbs : Int) = num := by omega
      have h := consumeNumeric_exp_nonneg num.natAbs scale suffix hs1 hs2 hs3
      rw [hna] at h
      simp only [serializeNum, Bool.false_eq_true, if_false, intText, if_neg hneg,
        List.cons_append, List.append_assoc, h, List.length_cons, List.length_append,
        Prod.mk.injEq]
      all_goals exact ⟨trivial, by omega⟩


theorem nextToken_comment (l : List Char) :
    nextToken ('/' :: '*' :: l) =
      (.comment (consumeCommentBody l).2, 2 + (consumeCommentBody l).1) := rfl

theorem nextToken_dquote (l : List Char) :
    nextToken ('"' :: l) =
      (if (consumeStringBody l.length '"' l).2.2 then .badString
       else .quotedString (consumeStringBody l.length '"' l).2.1,
       1 + (consumeStringBody l.length '"' l).1) := rfl

theorem nextToken_hash (d : Char) (l : List Char) :
    nextToken ('#' :: d :: l) =
      (if isNameChar d || isValidEscape (d :: l) then
        (.hash (consumeName (d :: l).length (d :: l)).2 (wouldStartIdentifier (d :: l)),
         1 + (consumeName (d :: l).length (d :: l)).1)
       else (.delim '#', 1)) := rfl

theorem nextToken_at (l : List Char) :
    nextToken ('@' :: l) =
      (if wouldStartIdentifier l then
        (.atKeyword (consumeName l.length l).2, 1 + (consumeName l.length l).1)
       else (.delim '@', 1)) := rfl

theorem nextToken_bslash (l : List Char) :
    nextToken ('\\' :: l) =
      (if isValidEscape ('\\' :: l) then identLike ('\\' :: l) else (.delim '\\', 1)) := rfl

theorem nextToken_uplus (d : Char) (l : List Char) :
    nextToken ('u' :: '+' :: d :: l) =
      (if isHexDigit d || d == '?' then
        ((consumeUnicodeRange (d :: l)).1, 2 + (consumeUnicodeRange (d :: l)).2)
       else identLike ('u' :: '+' :: d :: l)) := rfl

theorem numFrac_bslash (x : List Char) : numFrac ('\\' :: x) = (false, 0, 0, '\\' :: x) := rfl

theorem numFrac_pct (x : List Char) : numFrac ('%' :: x) = (false, 0, 0, '%' :: x) := rfl

theorem numExpo_not_e (c : Char) (x : List Char) (h1 : (c == 'e') = false)
    (h2 : (c == 'E') = false) : numExpo (c :: x) = (false, false, 0, 0, c :: x) := by
  rcases x with _ | ⟨d, _ | ⟨d2, r⟩⟩
  · rfl
  · simp [numExpo, h1, h2]
  · by_cases hd : d = '+'
    · subst hd; simp [numExpo, h1, h2]
    · by_cases hd2 : d = '-'
      · subst hd2; simp [numExpo, h1, h2]
      · simp [numExpo, h1, h2, hd, hd2]

theorem numToken_nil (flag : Bool) (v : NumVal) : numToken flag v [] = (.number flag v, 0) := by
  simp [numToken, wouldStartIdentifier]

theorem numToken_pct (flag : Bool) (v : NumVal) (t : List Char) :
    numToken flag v ('%' :: t) = (.percentage flag v, 1) := rfl


theorem isDigit_ne (c : Char) (h : isDigit c = true) (d : Char) (hd : isDigit d = false) :
    (c == d) = false := by
  simp only [beq_eq_false_iff_ne, ne_eq]
  rintro rfl
  rw [h] at hd
  exact absurd hd (by decide)

theorem isDigit_not_ws (c : Char) (h : isDigit c = true) : isWhitespace c = false := by
  by_cases hw : isWhitespace c = true
  · rcases isWhitespace_cases c hw with rfl | rfl | rfl | rfl | rfl <;> exact absurd h (by decide)
  · simpa using hw

theorem nextToken_digit (c : Char) (l : List Char) (h : isDigit c = true) :
    nextToken (c :: l) = consumeNumeric (c :: l) := by
  have hw := isDigit_not_ws c h
  have h1 := isDigit_ne c h '/' (by decide)
  have h2 := isDigit_ne c h '"' (by decide)
  have h3 := isDigit_ne c h '\'' (by decide)
  have h4 := isDigit_ne c h '#' (by decide)
  have h5 := isDigit_ne c h '(' (by decide)
  have h6 := isDigit_ne c h ')' (by decide)
  have h7 := isDigit_ne c h '[' (by decide)
  have h8 := isDigit_ne c h ']' (by decide)
  have h9 := isDigit_ne c h '{' (by decide)
  have h10 := isDigit_ne c h '}' (by decide)
  have h11 := isDigit_ne c h '<' (by decide)
  have h12 := isDigit_ne c h '@' (by decide)
  have h13 := isDigit_ne c h '\\' (by decide)
  simp [nextToken, hw, h1, h2, h3, h4, h5, h6, h7, h8, h9, h10, h11, h12, h13, h]

theorem nextToken_dash_digit (d : Char) (t : List Char) (hd : isDigit d = true) :
    nextToken ('-' :: d :: t) = consumeNumeric ('-' :: d :: t) := by
  obtain ⟨hp, hm, hdot⟩ := isDigit_facts d hd
  have hsn : startsNumber ('-' :: d :: t) = true := by
    simp [startsNumber, hdot, hd]
  simp [nextToken, hm, hsn, (by decide : isWhitespace '-' = false)]


theorem escBody_length (c : Char) : 1 ≤ (escBody c).length := by
  by_cases h : c = '\x00'
  · simp [escBody, h]
  · simp [escBody, h, hex6]

theorem serializeName_length (v : List Char) : v.length ≤ (serializeName v).length := by
  induction v with
  | nil => simp [serializeName]
  | cons c v ih =>
    rw [serializeName_cons]
    by_cases hc : isNameChar c = true
    · simp only [if_pos hc, List.length_append, List.length_cons, List.length_nil]
      omega
    · have := escBody_length c
      simp only [if_neg hc, escChar, List.length_append, List.length_cons]
      omega

theorem serializeIdentText_length (v : List Char) (h : v ≠ []) :
    v.length < (serializeIdentText v).length := by
  cases v with
  | nil => exact absurd rfl h
  | cons c v =>
    have h1 := escBody_length c
    have h2 := serializeName_length v
    simp only [serializeIdentText, escChar, List.length_cons, List.cons_append,
      List.length_append]
    omega

theorem serializeStringBody_length (v : List Char) :
    v.length ≤ ((v.map serializeStringChar).flatten).length := by
  induction v with
  | nil => simp
  | cons c v ih =>
    have h1 : 1 ≤ (serializeStringChar c).length := by
      by_cases hc : (c = '"' || c = '\\' || isWhitespace c) = true
      · have := escBody_length c
        simp only [serializeStringChar, if_pos hc, escChar, List.length_cons]
        omega
      · simp [serializeStringChar, hc]
    simp only [List.map_cons, List.flatten_cons, List.length_append, List.length_cons]
    omega

theorem wouldStartIdentifier_sIT (v : List Char) (h : v ≠ []) (s : List Char) :
    wouldStartIdentifier (serializeIdentText v ++ s) = true := by
  cases v with
  | nil => exact absurd rfl h
  | cons c v =>
    obtain ⟨d, t, hdt, hnl, _⟩ := escBody_cons c
    simp only [serializeIdentText, escChar, hdt, List.cons_append]
    simp [wouldStartIdentifier, isValidEscape, hnl]

theorem numToken_sIT (flag : Bool) (v : NumVal) (u : List Char) (hu : u ≠ []) :
    numToken flag v (serializeIdentText u) =
      (.dimension flag v u, (serializeIdentText u).length) := by
  obtain ⟨d, t, hdt, hnl, _⟩ := escBody_cons (u.head (by exact hu))
  have hlen := serializeIdentText_length u hu
  have hname := consumeName_serializeIdentText u (serializeIdentText u).length [] hlen (by trivial)
  rw [List.append_nil] at hname
  have hwsi := wouldStartIdentifier_sIT u hu []
  rw [List.append_nil] at hwsi
  cases u with
  | nil => exact absurd rfl hu
  | cons c u =>
    obtain ⟨d2, t2, hdt2, _, _⟩ := escBody_cons c
    simp only [serializeIdentText, escChar, hdt2, List.cons_append] at hname hwsi ⊢
    simp only [List.length_cons, List.length_append] at hname
    simp [numToken, hwsi, hname]

theorem tokenEquiv_refl (t : Token) : tokenEquiv t t = true := by
  cases t <;> simp [tokenEquiv, NumVal.equiv]


theorem nextToken_serializeNum (flag : Bool) (v : NumVal)
    (hsc : flag = true → v.scale = 0) (suffix : List Char)
    (hs1 : numFrac suffix = (false, 0, 0, suffix))
    (hs2 : numExpo suffix = (false, false, 0, 0, suffix))
    (hs3 : ∀ c t, suffix = c :: t → isDigit c = false) :
    nextToken (serializeNum flag v ++ suffix) =
      ((numToken flag v suffix).1, (serializeNum flag v).length + (numToken flag v suffix).2) := by
  have hmain := consumeNumeric_serializeNum flag v hsc suffix hs1 hs2 hs3
  have hdis : nextToken (serializeNum flag v ++ suffix) =
      consumeNumeric (serializeNum flag v ++ suffix) := by
    obtain ⟨d, t, hdt, hdd⟩ := natDigits_head_digit v.num.natAbs
    by_cases hneg : v.num < 0
    · cases flag
      · simp only [serializeNum, Bool.false_eq_true, if_false, intText, if_pos hneg,
          List.cons_append, List.append_assoc, hdt]
        exact nextToken_dash_digit d _ hdd
      · simp only [serializeNum, if_true, intText, if_pos hneg, List.cons_append, hdt]
        exact nextToken_dash_digit d _ hdd
    · cases flag
      · simp only [serializeNum, Bool.false_eq_true, if_false, intText, if_neg hneg,
          List.append_assoc, hdt, List.cons_append]
        exact nextToken_digit d _ hdd
      · simp only [serializeNum, if_true, intText, if_neg hneg, hdt, List.cons_append]
        exact nextToken_digit d _ hdd
  rw [hdis, hmain]

theorem roundTrip_number (flag : Bool) (v : NumVal) (hsc : flag = true → v.scale = 0) :
    nextToken (serializeNum flag v) = (.number flag v, (serializeNum flag v).length) := by
  have h := nextToken_serializeNum flag v hsc [] rfl rfl (fun c t hct => by cases hct)
  rw [List.append_nil] at h
  rw [h, numToken_nil]
  simp

theorem roundTrip_percentage (flag : Bool) (v : NumVal) (hsc : flag = true → v.scale = 0) :
    nextToken (serializeNum flag v ++ ['%']) =
      (.percentage flag v, (serializeNum flag v).length + 1) := by
  have h := nextToken_serializeNum flag v hsc ['%'] (numFrac_pct []) rfl
    (fun c t hct => by cases hct; decide)
  rw [h, numToken_pct]

theorem roundTrip_dimension (flag : Bool) (v : NumVal) (hsc : flag = true → v.scale = 0)
    (unit : List Char) (hu : unit ≠ []) :
    nextToken (serializeNum flag v ++ serializeIdentText unit) =
      (.dimension flag v unit,
        (serializeNum flag v).length + (serializeIdentText unit).length) := by
  have hshape : ∃ x, serializeIdentText unit = '\\' :: x := by
    cases unit with
    | nil => exact absurd rfl hu
    | cons c u => exact ⟨escBody c ++ serializeName u, rfl⟩
  obtain ⟨x, hx⟩ := hshape
  have h := nextToken_serializeNum flag v hsc (serializeIdentText unit)
    (by rw [hx]; exact numFrac_bslash x)
    (by rw [hx]; exact numExpo_not_e '\\' x (by decide) (by decide))
    (by rw [hx]; intro c t hct; cases hct; decide)
  rw [h, numToken_sIT flag v unit hu]


theorem sIT_head (v : List Char) (hv : v ≠ []) :
    ∃ d x, serializeIdentText v = '\\' :: d :: x ∧ isNewline d = false := by
  cases v with
  | nil => exact absurd rfl hv
  | cons c u =>
    obtain ⟨d, t, hdt, hnl, _⟩ := escBody_cons c
    exact ⟨d, t ++ serializeName u, by simp [serializeIdentText, escChar, hdt], hnl⟩

theorem identLike_sIT (v : List Char) (hv : v ≠ []) :
    identLike (serializeIdentText v) = (.ident v, (serializeIdentText v).length) := by
  have hlen := serializeIdentText_length v hv
  have hname := consumeName_serializeIdentText v (serializeIdentText v).length [] hlen trivial
  rw [List.append_nil] at hname
  simp [identLike, hname, List.drop_length]

theorem identLike_sIT_fn (v : List Char) (hv : v ≠ [])
    (hurl : eqIgnoreAsciiCase v ['u', 'r', 'l'] = false) :
    identLike (serializeIdentText v ++ ['(']) =
      (.function v, (serializeIdentText v).length + 1) := by
  have hlen : v.length < (serializeIdentText v ++ ['(']).length := by
    have := serializeIdentText_length v hv
    simp only [List.length_append, List.length_cons, List.length_nil]
    omega
  have hname := consumeName_serializeIdentText v (serializeIdentText v ++ ['(']).length ['(']
    hlen ⟨by decide, by decide, by decide⟩
  simp only [List.length_append, List.length_cons, List.length_nil, Nat.zero_add] at hname
  have hget : (serializeIdentText v ++ ['('])[(serializeIdentText v).length]? = some '(' := by
    rw [List.getElem?_append_right (le_refl _)]
    simp
  simp [identLike, hname, hget, hurl]

theorem roundTrip_ident (v : List Char) (hv : v ≠ []) :
    nextToken (serializeIdentText v) = (.ident v, (serializeIdentText v).length) := by
  obtain ⟨d, x, hx, hnl⟩ := sIT_head v hv
  have hve : isValidEscape ('\\' :: d :: x) = true := by simp [isValidEscape, hnl]
  rw [hx, nextToken_bslash, if_pos hve, ← hx]
  exact identLike_sIT v hv

theorem roundTrip_function (v : List Char) (hv : v ≠ [])
    (hurl : eqIgnoreAsciiCase v ['u', 'r', 'l'] = false) :
    nextToken (serializeIdentText v ++ ['(']) =
      (.function v, (serializeIdentText v).length + 1) := by
  obtain ⟨d, x, hx, hnl⟩ := sIT_head v hv
  have hx2 : serializeIdentText v ++ ['('] = '\\' :: d :: (x ++ ['(']) := by
    rw [hx]; simp
  have hve : isValidEscape ('\\' :: d :: (x ++ ['('])) = true := by simp [isValidEscape, hnl]
  rw [hx2, nextToken_bslash, if_pos hve, ← hx2]
  exact identLike_sIT_fn v hv hurl

theorem roundTrip_atKeyword (v : List Char) (hv : v ≠ []) :
    nextToken ('@' :: serializeIdentText v) =
      (.atKeyword v, 1 + (serializeIdentText v).length) := by
  have hlen := serializeIdentText_length v hv
  have hname := consumeName_serializeIdentText v (serializeIdentText v).length [] hlen trivial
  rw [List.append_nil] at hname
  have hwsi := wouldStartIdentifier_sIT v hv []
  rw [List.append_nil] at hwsi
  rw [nextToken_at, if_pos hwsi, hname]

theorem roundTrip_hash_id (v : List Char) (hv : v ≠ []) :
    nextToken ('#' :: serializeIdentText v) =
      (.hash v true, 1 + (serializeIdentText v).length) := by
  obtain ⟨d, x, hx, hnl⟩ := sIT_head v hv
  have hve : isValidEscape ('\\' :: d :: x) = true := by simp [isValidEscape, hnl]
  have hlen := serializeIdentText_length v hv
  have hname := consumeName_serializeIdentText v (serializeIdentText v).length [] hlen trivial
  rw [List.append_nil] at hname
  have hwsi := wouldStartIdentifier_sIT v hv []
  rw [List.append_nil] at hwsi
  rw [hx] at hname hwsi ⊢
  rw [nextToken_hash, if_pos (by simp [hve]), hname, hwsi]


theorem roundTrip_string (v : List Char) :
    nextToken (serializeStringText v) =
      (.quotedString v, (serializeStringText v).length) := by
  have hlen : v.length < ((v.map serializeStringChar).flatten ++ ['"']).length := by
    have := serializeStringBody_length v
    simp only [List.length_append, List.length_cons, List.length_nil]
    omega
  have hbody := consumeStringBody_serialize v
    ((v.map serializeStringChar).flatten ++ ['"']).length [] hlen
  show nextToken ('"' :: ((v.map serializeStringChar).flatten ++ ['"'])) = _
  rw [nextToken_dquote, hbody]
  simp [serializeStringText]
  omega

theorem isDigit_char_mem (c : Char) (h : isDigit c = true) :
    c ∈ ['0', '1', '2', '3', '4', '5', '6', '7', '8', '9'] := by
  have hb : 48 ≤ c.toNat ∧ c.toNat ≤ 57 := by
    simp only [isDigit, Bool.and_eq_true, decide_eq_true_eq] at h
    exact ⟨h.1, h.2⟩
  have hc : c = Char.ofNat c.toNat := (Char.ofNat_toNat c).symm
  rw [hc]
  obtain ⟨h1, h2⟩ := hb
  interval_cases c.toNat <;> decide

theorem wouldStartIdentifier_digit (d : Char) (x : List Char) (h : isDigit d = true) :
    wouldStartIdentifier (d :: x) = false := by
  have hm := isDigit_char_mem d h
  simp only [List.mem_cons, List.not_mem_nil, or_false] at hm
  rcases hm with rfl | rfl | rfl | rfl | rfl | rfl | rfl | rfl | rfl | rfl <;>
    simp [wouldStartIdentifier, isValidEscape, isNameStart]

theorem wouldStartIdentifier_dash_digit (d : Char) (x : List Char) (h : isDigit d = true) :
    wouldStartIdentifier ('-' :: d :: x) = false := by
  have hm := isDigit_char_mem d h
  simp only [List.mem_cons, List.not_mem_nil, or_false] at hm
  rcases hm with rfl | rfl | rfl | rfl | rfl | rfl | rfl | rfl | rfl | rfl <;>
    simp [wouldStartIdentifier, isValidEscape, isNameStart]

theorem isDigit_nameChar (c : Char) (h : isDigit c = true) : isNameChar c = true := by
  simp [isNameChar, h]


theorem roundTrip_hash_fffd :
    nextToken ['#', '-', '\\', '\n'] = (.hash ['-', '�'] false, 3) := by decide

theorem roundTrip_hash_dash :
    nextToken ['#', '-'] = (.hash ['-'] false, 2) := by decide

theorem roundTrip_hash_digit (d : Char) (rest : List Char) (hd : isDigit d = true) :
    nextToken ('#' :: d :: serializeName rest) =
      (.hash (d :: rest) false, 1 + (serializeName (d :: rest)).length) := by
  have hnc : isNameChar d = true := isDigit_nameChar d hd
  have hsn : serializeName (d :: rest) = d :: serializeName rest := by
    rw [serializeName_cons, hnc]
    simp
  have hname := consumeName_serializeName (d :: rest) (serializeName (d :: rest)).length []
    (serializeName_length _) trivial
  rw [List.append_nil] at hname
  rw [hsn] at hname
  rw [nextToken_hash, if_pos (by simp [hnc]), hname, wouldStartIdentifier_digit d _ hd, hsn]

theorem roundTrip_hash_dash_digit (d : Char) (rest : List Char) (hd : isDigit d = true) :
    nextToken ('#' :: '-' :: d :: serializeName rest) =
      (.hash ('-' :: d :: rest) false, 1 + (serializeName ('-' :: d :: rest)).length) := by
  have hnc : isNameChar d = true := isDigit_nameChar d hd
  have hsn : serializeName ('-' :: d :: rest) = '-' :: d :: serializeName rest := by
    rw [serializeName_cons, (by decide : isNameChar '-' = true), serializeName_cons, hnc]
    simp
  have hname := consumeName_serializeName ('-' :: d :: rest)
    (serializeName ('-' :: d :: rest)).length [] (serializeName_length _) trivial
  rw [List.append_nil] at hname
  rw [hsn] at hname
  rw [nextToken_hash, if_pos (by simp [(by decide : isNameChar '-' = true)]), hname,
    wouldStartIdentifier_dash_digit d _ hd, hsn]


theorem consumeName_url (f : Nat) (s : List Char) :
    consumeName (f + 3) ('u' :: 'r' :: 'l' :: '(' :: s) = (3, ['u', 'r', 'l']) := by
  have h4 : ∀ g, consumeName g ('(' :: s) = (0, []) := by
    intro g
    cases g with
    | zero => simp [consumeName]
    | succ g => simp [consumeName, (by decide : isNameChar '(' = false)]
  simp [consumeName, h4, (by decide : isNameChar 'u' = true),
    (by decide : isNameChar 'r' = true), (by decide : isNameChar 'l' = true)]

theorem consumeUrl_serializeString (v : List Char) :
    consumeUrl (serializeStringText v ++ [')']) =
      ((serializeStringText v).length + 1, .url v) := by
  have hbodylen := serializeStringBody_length v
  have hlen : v.length < ((v.map serializeStringChar).flatten ++ '"' :: [')']).length := by
    simp only [List.length_append, List.length_cons, List.length_nil]
    omega
  have hbody := consumeStringBody_serialize v
    ((v.map serializeStringChar).flatten ++ '"' :: [')']).length [')'] hlen
  have hshape : serializeStringText v ++ [')'] =
      '"' :: ((v.map serializeStringChar).flatten ++ '"' :: [')']) := by
    simp [serializeStringText]
  have hdrop : ((v.map serializeStringChar).flatten ++ '"' :: [')']).drop
      ((v.map serializeStringChar).flatten.length + 1) = [')'] := by
    rw [show (v.map serializeStringChar).flatten ++ '"' :: [')'] =
      ((v.map serializeStringChar).flatten ++ ['"']) ++ [')'] by simp]
    rw [show (v.map serializeStringChar).flatten.length + 1 =
      ((v.map serializeStringChar).flatten ++ ['"']).length by simp]
    exact List.drop_left _ _
  rw [hshape]
  simp only [consumeUrl, countWhile_neg isWhitespace '"' _ (by decide), List.drop_zero,
    (by decide : ('"' == '"' || '"' == '\'') = true), if_true, hbody, hdrop]
  simp [countWhile_neg isWhitespace ')' [] (by decide), serializeStringText]
  omega

theorem roundTrip_url (v : List Char) :
    nextToken ('u' :: 'r' :: 'l' :: '(' :: serializeStringText v ++ [')']) =
      (.url v, 4 + ((serializeStringText v).length + 1)) := by
  have hdis : nextToken ('u' :: 'r' :: 'l' :: '(' :: serializeStringText v ++ [')']) =
      identLike ('u' :: 'r' :: 'l' :: '(' :: serializeStringText v ++ [')']) := rfl
  rw [hdis]
  have hfuel : ('u' :: 'r' :: 'l' :: '(' :: serializeStringText v ++ [')']).length =
      (serializeStringText v ++ [')']).length + 3 + 1 := by simp
  have hname : consumeName ('u' :: 'r' :: 'l' :: '(' :: serializeStringText v ++ [')']).length
      ('u' :: 'r' :: 'l' :: '(' :: serializeStringText v ++ [')']) = (3, ['u', 'r', 'l']) := by
    rw [hfuel]
    exact consumeName_url _ _
  have hget : ('u' :: 'r' :: 'l' :: '(' :: serializeStringText v ++ [')'])[3]? = some '(' := rfl
  have hdrop4 : ('u' :: 'r' :: 'l' :: '(' :: serializeStringText v ++ [')']).drop 4 =
      serializeStringText v ++ [')'] := rfl
  simp only [identLike, hname, hget, hdrop4]
  simp [consumeUrl_serializeString v, (by decide : eqIgnoreAsciiCase ['u','r','l'] ['u','r','l'] = true)]


theorem takeHex_hex6 (n : Nat) (rest : List Char) :
    takeHex 6 0 (hex6 n ++ rest) =
      (6, ((((n / 16 ^ 5 % 16 * 16 + n / 16 ^ 4 % 16) * 16 + n / 16 ^ 3 % 16) * 16 +
        n / 16 ^ 2 % 16) * 16 + n / 16 % 16) * 16 + n % 16) := by
  have hm : ∀ x : Nat, x % 16 < 16 := fun x => Nat.mod_lt _ (by omega)
  simp [hex6, takeHex, (hexDigitChar_spec _ (hm _)).1, (hexDigitChar_spec _ (hm _)).2.1]

theorem takeHex_hex6_val (n : Nat) (h : n < 16 ^ 6) (rest : List Char) :
    takeHex 6 0 (hex6 n ++ rest) = (6, n) := by
  rw [takeHex_hex6 n rest]
  refine Prod.ext rfl ?_
  show _ = n
  omega

theorem consumeUnicodeRange_hex (lo hi : Nat) (hlo : lo < 16 ^ 6) (hhi : hi < 16 ^ 6) :
    consumeUnicodeRange (hex6 lo ++ '-' :: hex6 hi) = (.unicodeRange lo hi, 13) := by
  have h1 := takeHex_hex6_val lo hlo ('-' :: hex6 hi)
  have h2 : takeHex 6 0 (hex6 hi) = (6, hi) := by
    have := takeHex_hex6_val hi hhi []
    rwa [List.append_nil] at this
  have hdrop : (hex6 lo ++ '-' :: hex6 hi).drop 6 = '-' :: hex6 hi := by
    rw [show (6 : Nat) = (hex6 lo).length by simp [hex6]]
    exact List.drop_left _ _
  have hm : ∀ x : Nat, x % 16 < 16 := fun x => Nat.mod_lt _ (by omega)
  have hhd : isHexDigit (hexDigitChar (hi / 16 ^ 5 % 16)) = true := (hexDigitChar_spec _ (hm _)).1
  simp only [consumeUnicodeRange, h1, hdrop]
  simp only [hex6, countCharMax, Nat.sub_self, lt_irrefl, if_false]
  simp [takeHex, (hexDigitChar_spec _ (hm _)).1, (hexDigitChar_spec _ (hm _)).2.1]
  all_goals omega

theorem roundTrip_unicode (lo hi : Nat) (hlo : lo < 16 ^ 6) (hhi : hi < 16 ^ 6) :
    nextToken ('u' :: '+' :: hex6 lo ++ '-' :: hex6 hi) = (.unicodeRange lo hi, 15) := by
  have hm : ∀ x : Nat, x % 16 < 16 := fun x => Nat.mod_lt _ (by omega)
  have hcur := consumeUnicodeRange_hex lo hi hlo hhi
  have hshape : 'u' :: '+' :: hex6 lo ++ '-' :: hex6 hi =
      'u' :: '+' :: hexDigitChar (lo / 16 ^ 5 % 16) ::
        ((hex6 lo).tail ++ '-' :: hex6 hi) := by
    simp [hex6]
  rw [hshape, nextToken_uplus,
    if_pos (by simp [(hexDigitChar_spec _ (hm _)).1]),
    show hexDigitChar (lo / 16 ^ 5 % 16) :: ((hex6 lo).tail ++ '-' :: hex6 hi) =
      hex6 lo ++ '-' :: hex6 hi by simp [hex6], hcur]
  rfl


theorem consumeName_value_ne_nil (f : Nat) (c : Char) (rest : List Char)
    (h : isNameChar c = true ∨ c = '\\') : (consumeName (f + 1) (c :: rest)).2 ≠ [] := by
  rcases h with h | rfl
  · simp [consumeName, h]
  · simp [consumeName, (by decide : isNameChar '\\' = false)]

theorem wouldStartIdentifier_head (l : List Char) (h : wouldStartIdentifier l = true) :
    ∃ c rest, l = c :: rest ∧ (isNameChar c = true ∨ c = '\\') := by
  cases l with
  | nil => simp [wouldStartIdentifier] at h
  | cons c rest =>
    refine ⟨c, rest, rfl, ?_⟩
    by_cases hc : isNameChar c = true
    · exact Or.inl hc
    · right
      by_cases hbs : c = '\\'
      · exact hbs
      · exfalso
        by_cases hdash : c = '-'
        · exact hc (by subst hdash; decide)
        · have hred : wouldStartIdentifier (c :: rest) =
              (isNameStart c || isValidEscape (c :: rest)) := by
            simp [wouldStartIdentifier, hdash]
          rw [hred] at h
          rcases Bool.or_eq_true_iff.mp h with h | h
          · exact hc (by simp [isNameChar, h])
          · cases rest with
            | nil => simp [isValidEscape] at h
            | cons d r =>
              have : c = '\\' := by
                by_contra hne
                rw [show isValidEscape (c :: d :: r) = false by
                  simp [isValidEscape, hne]] at h
                exact Bool.false_ne_true h
              exact hbs this

theorem consumeUrl_shape (l : List Char) :
    (consumeUrl l).2 = .badUrl ∨ ∃ v, (consumeUrl l).2 = .url v := by
  unfold consumeUrl
  simp only []
  repeat' split
  all_goals simp

theorem consumeUrl_wf (l : List Char) : WFToken (consumeUrl l).2 = true := by
  rcases consumeUrl_shape l with h | ⟨v, h⟩ <;> rw [h] <;> rfl

theorem WFToken_ident (v : List Char) : WFToken (.ident v) = !v.isEmpty := rfl

theorem WFToken_function (v : List Char) :
    WFToken (.function v) = (!v.isEmpty && !eqIgnoreAsciiCase v ['u', 'r', 'l']) := rfl

theorem WFToken_atKeyword (v : List Char) : WFToken (.atKeyword v) = !v.isEmpty := rfl

theorem WFToken_number (flag : Bool) (v : NumVal) :
    WFToken (.number flag v) = (!flag || v.scale == 0) := rfl

theorem WFToken_percentage (flag : Bool) (v : NumVal) :
    WFToken (.percentage flag v) = (!flag || v.scale == 0) := rfl

theorem WFToken_dimension (flag : Bool) (v : NumVal) (u : List Char) :
    WFToken (.dimension flag v u) = ((!flag || v.scale == 0) && !u.isEmpty) := rfl

theorem WFToken_unicodeRange (lo hi : Nat) :
    WFToken (.unicodeRange lo hi) = (decide (lo < 16 ^ 6) && decide (hi < 16 ^ 6)) := rfl

theorem identLike_wf (c : Char) (rest : List Char) (h : isNameChar c = true ∨ c = '\\') :
    WFToken (identLike (c :: rest)).1 = true := by
  have hne := consumeName_value_ne_nil rest.length c rest h
  unfold identLike
  simp only [List.length_cons]
  split
  · split
    · exact consumeUrl_wf _
    · rename_i hurl
      rw [WFToken_function, Bool.and_eq_true]
      constructor
      · simpa using hne
      · simpa using hurl
  · rw [WFToken_ident]
    simpa using hne

theorem numFrac_cases (l : List Char) : numFrac l = (false, 0, 0, l) ∨ (numFrac l).1 = true := by
  unfold numFrac
  repeat' split
  all_goals first | (left; rfl) | (right; rfl)

theorem numToken_wf (flag : Bool) (v : NumVal) (l4 : List Char)
    (hv : flag = true → v.scale = 0) : WFToken (numToken flag v l4).1 = true := by
  unfold numToken
  split
  · rw [WFToken_percentage]
    cases flag with
    | false => simp
    | true => simp [hv rfl]
  · split
    · rename_i hwsi
      obtain ⟨c, rest, hl, hc⟩ := wouldStartIdentifier_head l4 hwsi
      subst hl
      have hne := consumeName_value_ne_nil rest.length c rest hc
      rw [WFToken_dimension, Bool.and_eq_true]
      constructor
      · cases flag with
        | false => simp
        | true => simp [hv rfl]
      · simp only [List.length_cons]
        simpa using hne
    · rw [WFToken_number]
      cases flag with
      | false => simp
      | true => simp [hv rfl]

theorem consumeNumeric_wf (l : List Char) : WFToken (consumeNumeric l).1 = true := by
  simp only [consumeNumeric]
  apply numToken_wf
  intro hflag
  simp only [Bool.and_eq_true, Bool.not_eq_true'] at hflag
  obtain ⟨hf, he⟩ := hflag
  rcases numFrac_cases (((numSign l).2.2).drop (countWhile isDigit (numSign l).2.2)) with
    hfc | hfc
  · rw [hfc] at he ⊢
    simp [numValue, he]
  · rw [hfc] at hf
    simp at hf


theorem hexDigitVal_le (c : Char) (h : isHexDigit c = true) : hexDigitVal c ≤ 15 := by
  simp only [isHexDigit, isDigit, Bool.or_eq_true, Bool.and_eq_true, decide_eq_true_eq] at h
  have hb : (48 ≤ c.toNat ∧ c.toNat ≤ 57) ∨ (97 ≤ c.toNat ∧ c.toNat ≤ 102) ∨
      (65 ≤ c.toNat ∧ c.toNat ≤ 70) := by
    rcases h with (⟨h1, h2⟩ | ⟨h1, h2⟩) | ⟨h1, h2⟩
    · exact Or.inl ⟨h1, h2⟩
    · exact Or.inr (Or.inl ⟨h1, h2⟩)
    · exact Or.inr (Or.inr ⟨h1, h2⟩)
  unfold hexDigitVal
  by_cases hd : isDigit c = true
  · have hdb : 48 ≤ c.toNat ∧ c.toNat ≤ 57 := by
      simp only [isDigit, Bool.and_eq_true, decide_eq_true_eq] at hd
      exact ⟨hd.1, hd.2⟩
    rw [if_pos hd]
    omega
  · rw [if_neg hd]
    by_cases ha : ('a' ≤ c && c ≤ 'f') = true
    · have hab : 97 ≤ c.toNat ∧ c.toNat ≤ 102 := by
        simp only [Bool.and_eq_true, decide_eq_true_eq] at ha
        exact ⟨ha.1, ha.2⟩
      rw [if_pos ha]
      omega
    · rw [if_neg ha]
      have hdn : ¬(48 ≤ c.toNat ∧ c.toNat ≤ 57) := by
        intro hcon
        exact hd (by simp only [isDigit, Bool.and_eq_true, decide_eq_true_eq]
                     exact ⟨hcon.1, hcon.2⟩)
      have han : ¬(97 ≤ c.toNat ∧ c.toNat ≤ 102) := by
        intro hcon
        exact ha (by simp only [Bool.and_eq_true, decide_eq_true_eq]
                     exact ⟨hcon.1, hcon.2⟩)
      omega

theorem takeHex_lt : ∀ (a acc : Nat) (l : List Char),
    (takeHex a acc l).2 < (acc + 1) * 16 ^ (takeHex a acc l).1 ∧ (takeHex a acc l).1 ≤ a := by
  intro a
  induction a with
  | zero => intro acc l; simp [takeHex]
  | succ a ih =>
    intro acc l
    cases l with
    | nil => simp [takeHex]
    | cons c rest =>
      by_cases hc : isHexDigit c = true
      · simp only [takeHex, hc, if_true]
        obtain ⟨ih1, ih2⟩ := ih (acc * 16 + hexDigitVal c) rest
        have hdl := hexDigitVal_le c hc
        refine ⟨?_, by omega⟩
        calc (takeHex a (acc * 16 + hexDigitVal c) rest).2
            < (acc * 16 + hexDigitVal c + 1) *
                16 ^ (takeHex a (acc * 16 + hexDigitVal c) rest).1 := ih1
          _ ≤ ((acc + 1) * 16) * 16 ^ (takeHex a (acc * 16 + hexDigitVal c) rest).1 := by
              have : acc * 16 + hexDigitVal c + 1 ≤ (acc + 1) * 16 := by omega
              exact Nat.mul_le_mul_right _ this
          _ = (acc + 1) * 16 ^ ((takeHex a (acc * 16 + hexDigitVal c) rest).1 + 1) := by
              rw [pow_succ]
              ring
      · simp only [takeHex, hc, Bool.false_eq_true, if_false]
        constructor
        · have : 0 < 16 ^ (0 : Nat) := by norm_num
          simp
        · omega

theorem countCharMax_le (q : Char) : ∀ (a : Nat) (l : List Char), countCharMax q a l ≤ a := by
  intro a
  induction a with
  | zero => intro l; simp [countCharMax]
  | succ a ih =>
    intro l
    cases l with
    | nil => simp [countCharMax]
    | cons c rest =>
      by_cases hc : (c == q) = true
      · simp only [countCharMax, hc, if_true]
        have := ih rest
        omega
      · simp [countCharMax, hc]

theorem consumeUnicodeRange_wf (l : List Char) :
    WFToken (consumeUnicodeRange l).1 = true := by
  obtain ⟨hlt, hle⟩ := takeHex_lt 6 0 l
  simp only [Nat.zero_add, Nat.one_mul] at hlt
  have h16 : (1 : Nat) ≤ 16 := by omega
  have hpow : 16 ^ (takeHex 6 0 l).1 ≤ 16 ^ 6 := Nat.pow_le_pow_right h16 hle
  unfold consumeUnicodeRange
  by_cases hqn : 0 < countCharMax '?' (6 - (takeHex 6 0 l).1) (l.drop (takeHex 6 0 l).1)
  · rw [if_pos hqn, WFToken_unicodeRange, Bool.and_eq_true]
    have hqle := countCharMax_le '?' (6 - (takeHex 6 0 l).1) (l.drop (takeHex 6 0 l).1)
    have hsum : (takeHex 6 0 l).1 +
        countCharMax '?' (6 - (takeHex 6 0 l).1) (l.drop (takeHex 6 0 l).1) ≤ 6 := by omega
    have hbig : 16 ^ (takeHex 6 0 l).1 *
        16 ^ countCharMax '?' (6 - (takeHex 6 0 l).1) (l.drop (takeHex 6 0 l).1) ≤ 16 ^ 6 := by
      rw [← pow_add]
      exact Nat.pow_le_pow_right h16 hsum
    have hq0 : 0 < 16 ^ countCharMax '?' (6 - (takeHex 6 0 l).1)
        (l.drop (takeHex 6 0 l).1) := by positivity
    have h1 : ((takeHex 6 0 l).2 + 1) *
        16 ^ countCharMax '?' (6 - (takeHex 6 0 l).1) (l.drop (takeHex 6 0 l).1) ≤
        16 ^ (takeHex 6 0 l).1 *
        16 ^ countCharMax '?' (6 - (takeHex 6 0 l).1) (l.drop (takeHex 6 0 l).1) :=
      Nat.mul_le_mul_right _ (by omega)
    have hmul : ((takeHex 6 0 l).2 + 1) *
        16 ^ countCharMax '?' (6 - (takeHex 6 0 l).1) (l.drop (takeHex 6 0 l).1) ≤ 16 ^ 6 :=
      le_trans h1 hbig
    have hexp : ((takeHex 6 0 l).2 + 1) *
        16 ^ countCharMax '?' (6 - (takeHex 6 0 l).1) (l.drop (takeHex 6 0 l).1) =
        (takeHex 6 0 l).2 *
        16 ^ countCharMax '?' (6 - (takeHex 6 0 l).1) (l.drop (takeHex 6 0 l).1) +
        16 ^ countCharMax '?' (6 - (takeHex 6 0 l).1) (l.drop (takeHex 6 0 l).1) := by ring
    constructor
    · simp only [decide_eq_true_eq]
      omega
    · simp only [decide_eq_true_eq]
      omega
  · rw [if_neg hqn]
    have hfin : ∀ m, m < 16 ^ 6 → WFToken (Token.unicodeRange (takeHex 6 0 l).2 m) = true := by
      intro m hm
      rw [WFToken_unicodeRange, Bool.and_eq_true]
      exact ⟨by simp only [decide_eq_true_eq]; omega, by simp only [decide_eq_true_eq]; omega⟩
    have hfin2 : ∀ (xl : List Char), (takeHex 6 0 xl).2 < 16 ^ 6 := by
      intro xl
      obtain ⟨a, b⟩ := takeHex_lt 6 0 xl
      simp only [Nat.zero_add, Nat.one_mul] at a
      have hp := Nat.pow_le_pow_right h16 b
      omega
    split
    all_goals first
      | (split
         · exact hfin _ (hfin2 _)
         · exact hfin _ (hfin2 _))
      | exact hfin _ (hfin2 _)


theorem WFToken_hash (v : List Char) (b : Bool) :
    WFToken (.hash v b) = (!v.isEmpty && (b || hashShape v)) := rfl

theorem WFToken_whitespace (c : Char) (s : List Char) :
    WFToken (.whitespace (c :: s)) = isWhitespace c := rfl

theorem hashShape_digit (d : Char) (tail : List Char) (h : isDigit d = true) :
    hashShape (d :: tail) = true := by
  have hm := isDigit_char_mem d h
  simp only [List.mem_cons, List.not_mem_nil, or_false] at hm
  rcases hm with rfl | rfl | rfl | rfl | rfl | rfl | rfl | rfl | rfl | rfl <;> rfl

theorem hashShape_dash_digit (e : Char) (tail : List Char) (h : isDigit e = true) :
    hashShape ('-' :: e :: tail) = true := by
  have hm := isDigit_char_mem e h
  simp only [List.mem_cons, List.not_mem_nil, or_false] at hm
  rcases hm with rfl | rfl | rfl | rfl | rfl | rfl | rfl | rfl | rfl | rfl <;> rfl

theorem wouldStartIdentifier_cons_ne_dash (d : Char) (x : List Char) (h : ¬d = '-') :
    wouldStartIdentifier (d :: x) = (isNameStart d || isValidEscape (d :: x)) := by
  simp [wouldStartIdentifier, h]

theorem isValidEscape_bslash (d : Char) (l : List Char) (h : isValidEscape (d :: l) = true) :
    d = '\\' := by
  by_contra hne
  cases l with
  | nil => simp [isValidEscape] at h
  | cons e r =>
    rw [show isValidEscape (d :: e :: r) = false by simp [isValidEscape, hne]] at h
    exact Bool.false_ne_true h


theorem wouldStartIdentifier_dash_cons (e : Char) (x : List Char) :
    wouldStartIdentifier ('-' :: e :: x) =
      ((isNameStart e || e == '-') || isValidEscape (e :: x)) := rfl

theorem consumeName_hash_shape (d : Char) (l : List Char)
    (hcond : (isNameChar d || isValidEscape (d :: l)) = true)
    (hid : wouldStartIdentifier (d :: l) = false) :
    hashShape (consumeName (d :: l).length (d :: l)).2 = true := by
  simp only [List.length_cons]
  by_cases hve : isValidEscape (d :: l) = true
  · exfalso
    have hd := isValidEscape_bslash d l hve
    subst hd
    rw [wouldStartIdentifier_cons_ne_dash '\\' l (by decide),
      (by decide : isNameStart '\\' = false), Bool.false_or, hve] at hid
    exact absurd hid (by decide)
  · have hnc : isNameChar d = true := by
      rcases Bool.or_eq_true_iff.mp hcond with h | h
      · exact h
      · exact absurd h hve
    by_cases hdash : d = '-'
    · subst hdash
      rw [show consumeName (l.length + 1) ('-' :: l) =
          ((consumeName l.length l).1 + 1, '-' :: (consumeName l.length l).2) by
        simp [consumeName, hnc]]
      cases l with
      | nil => rfl
      | cons e l2 =>
        rw [wouldStartIdentifier_dash_cons] at hid
        have he : (isNameStart e = false ∧ ¬e = '-') ∧
            isValidEscape (e :: l2) = false := by
          simpa using hid
        obtain ⟨⟨he1, he2⟩, he3⟩ := he
        simp only [List.length_cons]
        by_cases hne : isNameChar e = true
        · have hed : isDigit e = true := by
            simp only [isNameChar, Bool.or_eq_true] at hne
            rcases hne with (h | h) | h
            · exact absurd h (by simp [he1])
            · exact h
            · exact absurd h (by simp [he2])
          rw [show consumeName (l2.length + 1) (e :: l2) =
              ((consumeName l2.length l2).1 + 1, e :: (consumeName l2.length l2).2) by
            simp [consumeName, hne]]
          exact hashShape_dash_digit e _ hed
        · by_cases hbs : e = '\\'
          · subst hbs
            cases l2 with
            | nil => rfl
            | cons g l3 =>
              simp only [List.length_cons]
              have hgn : isNewline g = true := by
                rw [show isValidEscape ('\\' :: g :: l3) = !isNewline g from rfl] at he3
                simpa using he3
              have hgw : isWhitespace g = true := by simp [isWhitespace, hgn]
              have hgnc : isNameChar g = false := by
                by_cases hq : isNameChar g = true
                · rw [isNameChar_not_ws g hq] at hgw
                  exact absurd hgw (by decide)
                · simpa using hq
              have hgbs : (g == '\\') = false := by
                simp only [isNewline, Bool.or_eq_true, beq_iff_eq] at hgn
                rcases hgn with (rfl | rfl) | rfl <;> decide
              have hesc : consumeEscape (g :: l3) = (0, '�') := by
                simp [consumeEscape, isHexDigit_of_newline g hgn, hgn]
              rw [show consumeName (l3.length + 1 + 1) ('\\' :: g :: l3) =
                  (1 + 0 + (consumeName (l3.length + 1) ((g :: l3).drop 0)).1,
                    '�' :: (consumeName (l3.length + 1) ((g :: l3).drop 0)).2) by
                simp [consumeName, hesc, (by decide : isNameChar '\\' = false)]]
              rw [show consumeName (l3.length + 1) ((g :: l3).drop 0) = (0, []) by
                simp [consumeName, hgnc, hgbs]]
              rfl
          · have hbs2 : (e == '\\') = false := by simp [hbs]
            rw [show consumeName (l2.length + 1) (e :: l2) = (0, []) by
              simp [consumeName, hne, hbs2]]
            rfl
    · rw [wouldStartIdentifier_cons_ne_dash d l hdash] at hid
      have hd1 : isNameStart d = false := by
        rcases Bool.or_eq_false_iff.mp hid with ⟨h, _⟩
        exact h
      have hdd : isDigit d = true := by
        simp only [isNameChar, Bool.or_eq_true] at hnc
        rcases hnc with (h | h) | h
        · exact absurd h (by simp [hd1])
        · exact h
        · exact absurd (by simpa using h) hdash
      rw [show consumeName (l.length + 1) (d :: l) =
          ((consumeName l.length l).1 + 1, d :: (consumeName l.length l).2) by
        simp [consumeName, hnc]]
      exact hashShape_digit d _ hdd


set_option maxHeartbeats 4000000 in
theorem nextToken_wf (l : List Char) : WFToken (nextToken l).1 = true := by
  cases l with
  | nil => rfl
  | cons c rest =>
  by_cases h1 : isWhitespace c = true
  · simp [nextToken, h1, WFToken_whitespace]
  by_cases h2 : c = '/'
  · subst h2; simp [nextToken, *]
    split
    · rfl
    · decide
  by_cases h3 : c = '"' ∨ c = '\''
  · rcases h3 with rfl | rfl <;> simp [nextToken, *] <;> split <;> rfl
  by_cases h4 : c = '#'
  · subst h4
    cases rest with
    | nil => decide
    | cons d l2 =>
      rw [nextToken_hash]
      by_cases hcond : (isNameChar d || isValidEscape (d :: l2)) = true
      · rw [if_pos hcond]
        have hor : isNameChar d = true ∨ d = '\\' := by
          rcases Bool.or_eq_true_iff.mp hcond with h | h
          · exact Or.inl h
          · exact Or.inr (isValidEscape_bslash d l2 h)
        rw [WFToken_hash, Bool.and_eq_true]
        constructor
        · have hne := consumeName_value_ne_nil l2.length d l2 hor
          simp only [List.length_cons]
          simpa using hne
        · by_cases hid : wouldStartIdentifier (d :: l2) = true
          · simp [hid]
          · have hids : wouldStartIdentifier (d :: l2) = false := by simpa using hid
            have hshape := consumeName_hash_shape d l2 hcond hids
            simp only [List.length_cons] at hshape
            simp [hids, hshape]
      · rw [if_neg hcond]
        decide
  by_cases h5 : c = '('
  · subst h5; rfl
  by_cases h6 : c = ')'
  · subst h6; rfl
  by_cases h7 : c = '['
  · subst h7; rfl
  by_cases h8 : c = ']'
  · subst h8; rfl
  by_cases h9 : c = '{'
  · subst h9; rfl
  by_cases h10 : c = '}'
  · subst h10; rfl
  by_cases h11 : c = '<'
  · subst h11; simp [nextToken, *]
    split
    · rfl
    · decide
  by_cases h12 : c = '@'
  · subst h12
    rw [nextToken_at]
    by_cases hwsi : wouldStartIdentifier rest = true
    · rw [if_pos hwsi]
      obtain ⟨e, r2, hl, hor⟩ := wouldStartIdentifier_head rest hwsi
      subst hl
      have hne := consumeName_value_ne_nil r2.length e r2 hor
      rw [WFToken_atKeyword]
      simp only [List.length_cons]
      simpa using hne
    · rw [if_neg hwsi]
      decide
  by_cases h13 : c = '\\'
  · subst h13
    rw [nextToken_bslash]
    by_cases hve : isValidEscape ('\\' :: rest) = true
    · rw [if_pos hve]
      exact identLike_wf '\\' rest (Or.inr rfl)
    · rw [if_neg hve]
      decide
  by_cases h14 : isDigit c = true
  · rw [nextToken_digit c rest h14]
    exact consumeNumeric_wf _
  by_cases h15 : c = '+' ∨ c = '.'
  · rcases h15 with rfl | rfl <;> simp [nextToken, *] <;>
      · split
        · exact consumeNumeric_wf _
        · decide
  by_cases h16 : c = '-'
  · subst h16; simp [nextToken, *]
    split
    · rfl
    · split
      · exact consumeNumeric_wf _
      · split
        · exact identLike_wf _ _ (Or.inl (by decide))
        · decide
  by_cases h17 : c = 'u' ∨ c = 'U'
  · rcases h17 with rfl | rfl <;> simp [nextToken, *] <;>
      · split
        · split
          · exact consumeUnicodeRange_wf _
          · exact identLike_wf _ _ (Or.inl (by decide))
        · exact identLike_wf _ _ (Or.inl (by decide))
  by_cases h18 : isNameStart c = true
  · simp [nextToken, *]
    exact identLike_wf _ _ (Or.inl (isNameChar_of_start c h18))
  · have hnt : nextToken (c :: rest) = (.delim c, 1) := by simp [nextToken, *]
    rw [hnt]
    have hsingle : nextToken [c] = (.delim c, 1) := by simp [nextToken, *]
    show (nextToken [c] == (.delim c, 1)) = true
    rw [hsingle]
    simp


theorem tokenizeFuel_wf : ∀ (f : Nat) (l : List Char) (t : Token × List Char),
    t ∈ tokenizeFuel f l → WFToken t.1 = true := by
  intro f
  induction f with
  | zero => intro l t ht; simp [tokenizeFuel] at ht
  | succ f ih =>
    intro l t ht
    cases l with
    | nil =>
      simp only [tokenizeFuel, List.mem_singleton] at ht
      subst ht
      rfl
    | cons c rest =>
      simp only [tokenizeFuel, List.mem_cons] at ht
      rcases ht with rfl | ht
      · exact nextToken_wf _
      · exact ih _ _ ht

theorem tokenize_wf (l : List Char) (t : Token) (ht : t ∈ tokenize l) : WFToken t = true := by
  simp only [tokenize, tokenizeSpans, List.mem_map] at ht
  obtain ⟨p, hp, rfl⟩ := ht
  exact tokenizeFuel_wf _ _ _ hp


theorem hashShape_inv (v : List Char) (h : hashShape v = true) :
    v = ['-'] ∨ v = ['-', '�'] ∨ (∃ e t, v = '-' :: e :: t ∧ isDigit e = true) ∨
      (∃ e t, v = e :: t ∧ isDigit e = true) := by
  unfold hashShape at h
  split at h
  · split at h
    · exact Or.inl rfl
    · exact Or.inr (Or.inl rfl)
    · exact Or.inr (Or.inr (Or.inl ⟨_, _, rfl, h⟩))
  · exact Or.inr (Or.inr (Or.inr ⟨_, _, rfl, h⟩))
  · exact absurd h (by decide)

theorem serializeHashUnrestricted_digit (e : Char) (t : List Char) (h : isDigit e = true) :
    serializeHashUnrestricted (e :: t) = e :: serializeName t := by
  have hm := isDigit_char_mem e h
  simp only [List.mem_cons, List.not_mem_nil, or_false] at hm
  rcases hm with rfl | rfl | rfl | rfl | rfl | rfl | rfl | rfl | rfl | rfl <;> rfl

theorem serializeHashUnrestricted_dash_digit (e : Char) (t : List Char)
    (h : isDigit e = true) :
    serializeHashUnrestricted ('-' :: e :: t) = '-' :: e :: serializeName t := by
  have hm := isDigit_char_mem e h
  simp only [List.mem_cons, List.not_mem_nil, or_false] at hm
  rcases hm with rfl | rfl | rfl | rfl | rfl | rfl | rfl | rfl | rfl | rfl <;> rfl


set_option maxHeartbeats 2000000 in
/-- C9: every token produced by the tokenizer that has a defined
serialization (all kinds except bad-string, bad-url and EOF), when
serialized by the modelled serializer and re-tokenized, yields a token of
the same kind with an equivalent semantic value (exact value, flag and
unit for numeric tokens, exact text for names, strings, urls and hashes,
exact bounds for unicode ranges; whitespace and comments round-trip by
kind only). -/
theorem roundTrip (s : List Char) (t : Token) (ht : t ∈ tokenize s)
    (txt : List Char) (hser : serializeToken t = some txt) :
    tokenEquiv t (nextToken txt).1 = true := by
  have hwf : WFToken t = true := tokenize_wf s t ht
  cases t with
  | whitespace w =>
    simp only [serializeToken, Option.some.injEq] at hser
    subst hser
    cases w with
    | nil => exact absurd hwf (by decide)
    | cons c w2 =>
      rw [WFToken_whitespace] at hwf
      simp [nextToken, hwf, tokenEquiv]
  | comment m =>
    simp only [serializeToken, Option.some.injEq] at hser
    subst hser
    simp only [List.cons_append]
    rw [nextToken_comment]
    simp [tokenEquiv]
  | ident v =>
    simp only [serializeToken, Option.some.injEq] at hser
    subst hser
    rw [WFToken_ident] at hwf
    have hv : v ≠ [] := by simpa using hwf
    rw [roundTrip_ident v hv]
    exact tokenEquiv_refl _
  | function v =>
    simp only [serializeToken, Option.some.injEq] at hser
    subst hser
    rw [WFToken_function, Bool.and_eq_true] at hwf
    have hv : v ≠ [] := by simpa using hwf.1
    have hurl : eqIgnoreAsciiCase v ['u', 'r', 'l'] = false := by simpa using hwf.2
    rw [roundTrip_function v hv hurl]
    exact tokenEquiv_refl _
  | atKeyword v =>
    simp only [serializeToken, Option.some.injEq] at hser
    subst hser
    rw [WFToken_atKeyword] at hwf
    have hv : v ≠ [] := by simpa using hwf
    rw [roundTrip_atKeyword v hv]
    exact tokenEquiv_refl _
  | hash v idLike =>
    simp only [serializeToken, Option.some.injEq] at hser
    subst hser
    rw [WFToken_hash, Bool.and_eq_true] at hwf
    have hv : v ≠ [] := by simpa using hwf.1
    cases idLike with
    | true =>
      rw [if_pos rfl, roundTrip_hash_id v hv]
      exact tokenEquiv_refl _
    | false =>
      rw [if_neg (by simp)]
      have hshape : hashShape v = true := by simpa using hwf.2
      rcases hashShape_inv v hshape with rfl | rfl | ⟨e, t2, rfl, he⟩ | ⟨e, t2, rfl, he⟩
      · rw [show serializeHashUnrestricted ['-'] = ['-'] from rfl, roundTrip_hash_dash]
        exact tokenEquiv_refl _
      · rw [show serializeHashUnrestricted ['-', '�'] = ['-', '\\', '\n'] from rfl,
          roundTrip_hash_fffd]
        exact tokenEquiv_refl _
      · rw [serializeHashUnrestricted_dash_digit e t2 he, roundTrip_hash_dash_digit e t2 he]
        exact tokenEquiv_refl _
      · rw [serializeHashUnrestricted_digit e t2 he, roundTrip_hash_digit e t2 he]
        exact tokenEquiv_refl _
  | quotedString v =>
    simp only [serializeToken, Option.some.injEq] at hser
    subst hser
    rw [roundTrip_string v]
    exact tokenEquiv_refl _
  | url v =>
    simp only [serializeToken, Option.some.injEq] at hser
    subst hser
    rw [roundTrip_url v]
    exact tokenEquiv_refl _
  | delim c =>
    simp only [serializeToken, Option.some.injEq] at hser
    subst hser
    have hnt : nextToken [c] = (.delim c, 1) := by
      have hb : (nextToken [c] == (.delim c, 1)) = true := hwf
      simpa using hb
    rw [hnt]
    exact tokenEquiv_refl _
  | number flag v =>
    simp only [serializeToken, Option.some.injEq] at hser
    subst hser
    rw [WFToken_number] at hwf
    have hsc : flag = true → v.scale = 0 := by
      intro hf
      subst hf
      simpa using hwf
    rw [roundTrip_number flag v hsc]
    exact tokenEquiv_refl _
  | percentage flag v =>
    simp only [serializeToken, Option.some.injEq] at hser
    subst hser
    rw [WFToken_percentage] at hwf
    have hsc : flag = true → v.scale = 0 := by
      intro hf
      subst hf
      simpa using hwf
    rw [roundTrip_percentage flag v hsc]
    exact tokenEquiv_refl _
  | dimension flag v unit =>
    simp only [serializeToken, Option.some.injEq] at hser
    subst hser
    rw [WFToken_dimension, Bool.and_eq_true] at hwf
    have hsc : flag = true → v.scale = 0 := by
      intro hf
      subst hf
      simpa using hwf.1
    have hu : unit ≠ [] := by simpa using hwf.2
    rw [roundTrip_dimension flag v hsc unit hu]
    exact tokenEquiv_refl _
  | unicodeRange lo hi =>
    simp only [serializeToken, Option.some.injEq] at hser
    subst hser
    rw [WFToken_unicodeRange, Bool.and_eq_true, decide_eq_true_eq, decide_eq_true_eq] at hwf
    rw [roundTrip_unicode lo hi hwf.1 hwf.2]
    exact tokenEquiv_refl _
  | cdo =>
    simp only [serializeToken, Option.some.injEq] at hser
    subst hser
    decide
  | cdc =>
    simp only [serializeToken, Option.some.injEq] at hser
    subst hser
    decide
  | parenOpen =>
    simp only [serializeToken, Option.some.injEq] at hser
    subst hser
    decide
  | parenClose =>
    simp only [serializeToken, Option.some.injEq] at hser
    subst hser
    decide
  | squareOpen =>
    simp only [serializeToken, Option.some.injEq] at hser
    subst hser
    decide
  | squareClose =>
    simp only [serializeToken, Option.some.injEq] at hser
    subst hser
    decide
  | curlyOpen =>
    simp only [serializeToken, Option.some.injEq] at hser
    subst hser
    decide
  | curlyClose =>
    simp only [serializeToken, Option.some.injEq] at hser
    subst hser
    decide
  | badString => exact Option.noConfusion hser
  | badUrl => exact Option.noConfusion hser
  | eof => exact Option.noConfusion hser

theorem roundTrip_witness :
    (Token.ident ['a'] ∈ tokenize ['a']) ∧
    serializeToken (Token.ident ['a']) = some (serializeIdentText ['a']) ∧
    tokenEquiv (Token.ident ['a']) (nextToken (serializeIdentText ['a'])).1 = true :=
  ⟨by decide, rfl,
    roundTrip ['a'] (Token.ident ['a']) (by decide) (serializeIdentText ['a']) rfl⟩

end CssParser
